import Mathlib

/-!
# Verification of the DokuWiki git remote helper

Shallow embedding of the core of `git-remote-dokuwiki` (a Rust git remote
helper bridging DokuWiki wikis and git) together with proofs about the
properties its specification states.

The embedding follows the source files:
* `src/fast_export.rs` — push path: draining the fast-export stream and
  projecting commits onto wiki mutations;
* `src/fast_import.rs` — fetch path: gathering wiki revisions and emitting a
  fast-import stream;
* `src/dokuwiki.rs`    — the RPC client, in particular `call`'s re-auth retry;
* `src/main.rs` / `src/protocol.rs` — the helper state machine.

External effects (HTTP RPC, subprocess git, the file system) are modelled as
oracle structures whose fields give the result of each call; byte streams are
`List Nat` (byte values).
-/

namespace DW

/-! ## Bytes and strings -/

/-- UTF-8 encoding of a single character (the byte sequence Rust's `String`
stores for it). -/
def utf8Enc (c : Char) : List Nat :=
  let n := c.toNat
  if n < 0x80 then [n]
  else if n < 0x800 then
    [0xC0 + n / 64, 0x80 + n % 64]
  else if n < 0x10000 then
    [0xE0 + n / 4096, 0x80 + (n / 64) % 64, 0x80 + n % 64]
  else
    [0xF0 + n / 262144, 0x80 + (n / 4096) % 64, 0x80 + (n / 64) % 64, 0x80 + n % 64]

/-- The UTF-8 bytes of a string (Rust `str::as_bytes` / `String::into_bytes`). -/
def strB (s : String) : List Nat := s.toList.flatMap utf8Enc

/-- Byte-lexicographic order on byte lists (Rust's `Ord` for `&str`/`&[u8]`). -/
def bytesLe : List Nat → List Nat → Bool
  | [], _ => true
  | _ :: _, [] => false
  | a :: as, b :: bs => if a < b then true else if b < a then false else bytesLe as bs

/-- Byte-lexicographic order on strings. -/
def strLe (a b : String) : Bool := bytesLe (strB a) (strB b)

/-- `pre.isPrefixOf s` on the underlying characters (Rust `str::starts_with`). -/
def strStartsWith (s pre : String) : Bool := pre.toList.isPrefixOf s.toList

/-- Rust `str::strip_prefix`: remove `pre` from the front of `s` if present. -/
def stripPre (pre s : String) : Option String :=
  if pre.toList.isPrefixOf s.toList then
    some ((s.toList.drop pre.toList.length).asString)
  else none

/-- Rust `str::strip_suffix`: remove `suf` from the end of `s` if present. -/
def stripSuf (suf s : String) : Option String :=
  if suf.toList.isSuffixOf s.toList then
    some ((s.toList.take (s.toList.length - suf.toList.length)).asString)
  else none

/-! ## Generic list helpers used by the embedding -/

/-- Stable insertion: place `x` before the first element `y` with `¬ le x y`.
Together with `sortByLe` this is a stable sort, matching Rust's stable
`sort`/`sort_by_key`. -/
def insLe (le : α → α → Bool) (x : α) : List α → List α
  | [] => [x]
  | y :: ys => if le x y then x :: y :: ys else y :: insLe le x ys

/-- Stable insertion sort by a boolean (total) order. -/
def sortByLe (le : α → α → Bool) : List α → List α
  | [] => []
  | x :: xs => insLe le x (sortByLe le xs)

/-- Remove adjacent duplicates (Rust `Vec::dedup`). -/
def dedupAdj [DecidableEq α] : List α → List α
  | [] => []
  | [x] => [x]
  | x :: y :: rest => if x = y then dedupAdj (y :: rest) else x :: dedupAdj (y :: rest)

/-! ## Export-stream draining (`fast_export.rs`, `process`, lines 112–135)

The push path first drains git's fast-export stream.  Each iteration reads one
line (`read_until b'\n'`), trims trailing whitespace, and then:
* `commit <ref>` records the target ref,
* `done` stops,
* `data <len>` with a parseable length reads exactly `len` raw bytes,
* anything else (including a `data` line whose length does not parse) is
  consumed and ignored.
-/

/-- `BufRead::read_until(b'\n')`: the first line including its terminating
newline byte (if any), and the rest of the input. -/
def splitLine : List Nat → List Nat × List Nat
  | [] => ([], [])
  | b :: rest =>
    if b = 10 then ([10], rest)
    else
      let p := splitLine rest
      (b :: p.1, p.2)

/-- ASCII whitespace, the bytes `str::trim_end` removes in the ASCII range. -/
def wsB (b : Nat) : Bool := b = 32 || b = 9 || b = 10 || b = 13 || b = 11 || b = 12

/-- `str::trim_end` at the byte level (ASCII whitespace). -/
def trimEndB (l : List Nat) : List Nat := (l.reverse.dropWhile wsB).reverse

/-- Is `b` an ASCII decimal digit? -/
def digitB (b : Nat) : Bool := 48 ≤ b && b ≤ 57

/-- Rust `str::parse::<usize>()` on bytes: an optional leading `+`, then a
non-empty run of decimal digits, value below `2^64`. -/
def parseUsize (l : List Nat) : Option Nat :=
  let ds := if l.head? = some 43 then l.tail else l
  if ds = [] then none
  else if ds.all digitB then
    let v := ds.foldl (fun acc b => acc * 10 + (b - 48)) 0
    if v < 2 ^ 64 then some v else none
  else none

/-- Result of draining the stream: the last `commit` ref seen (possibly empty),
or a framing error (`read_exact` hit end of input). -/
inductive DrainOut where
  | ok (targetRef : List Nat)
  | err
  deriving DecidableEq, Repr

/-- One drain loop (`fast_export.rs` lines 112–135), with explicit fuel; each
iteration consumes at least one byte, so `input.length + 1` fuel always
suffices. -/
def drainLoopF : Nat → List Nat → List Nat → DrainOut
  | 0, _, _ => DrainOut.err
  | _ + 1, [], targetRef => DrainOut.ok targetRef
  | fuel + 1, b :: bs, targetRef =>
    let p := splitLine (b :: bs)
    let line := trimEndB p.1
    if (strB "commit ").isPrefixOf line then
      drainLoopF fuel p.2 (line.drop 7)
    else if line = strB "done" then
      DrainOut.ok targetRef
    else if (strB "data ").isPrefixOf line then
      match parseUsize (line.drop 5) with
      | some len =>
        if len ≤ p.2.length then drainLoopF fuel (p.2.drop len) targetRef
        else DrainOut.err
      | none => drainLoopF fuel p.2 targetRef
    else
      drainLoopF fuel p.2 targetRef

/-- Drain a whole input (fuel `length + 1` always suffices). -/
def drainStream (input : List Nat) : DrainOut :=
  drainLoopF (input.length + 1) input []

/-! ### Lemmas about the drain loop -/

theorem splitLine_append_newline (L r : List Nat) (h : 10 ∉ L) :
    splitLine (L ++ 10 :: r) = (L ++ [10], r) := by
  induction L with
  | nil => simp [splitLine]
  | cons b bs ih =>
    have hb : b ≠ 10 := by
      intro hb; exact h (by simp [hb])
    have hbs : 10 ∉ bs := fun hm => h (List.mem_cons_of_mem _ hm)
    simp [splitLine, hb, ih hbs]

theorem trimEndB_append_ws (l : List Nat) (b : Nat) (hb : wsB b = true) :
    trimEndB (l ++ [b]) = trimEndB l := by
  simp [trimEndB, List.dropWhile, hb]

/-- A trimmed line that starts with `data ` neither starts with `commit ` nor
equals `done`. -/
theorem data_line_shape (line : List Nat)
    (h : (strB "data ").isPrefixOf line = true) :
    ((strB "commit ").isPrefixOf line = false) ∧ line ≠ strB "done" := by
  obtain ⟨tail, rfl⟩ := List.isPrefixOf_iff_prefix.mp h
  constructor
  · show (strB "commit ").isPrefixOf (strB "data " ++ tail) = false
    simp [strB, utf8Enc, List.flatMap, List.isPrefixOf]
  · intro hEq
    have : (strB "data " ++ tail).take 2 = (strB "done").take 2 := by rw [hEq]
    simp [strB, utf8Enc, List.flatMap] at this

theorem drop_append_self (l₁ l₂ : List Nat) : (l₁ ++ l₂).drop l₁.length = l₂ := by
  induction l₁ with
  | nil => simp
  | cons a as ih => simp [ih]

/-- C1: during export-stream draining, an input line of the form `data <len>`
with a valid decimal length makes `fast_export::process` consume exactly `len`
raw payload bytes (which may contain newlines) before resuming line-oriented
reading, so the next line read is the line that textually follows the payload:
the loop continues on exactly `rest`, with the target-ref state untouched. -/
theorem C1_data_payload_byte_exact (fuel len : Nat) (L payload rest tr : List Nat)
    (hnl : 10 ∉ L)
    (hdata : (strB "data ").isPrefixOf (trimEndB L) = true)
    (hlen : parseUsize ((trimEndB L).drop 5) = some len)
    (hpay : payload.length = len) :
    drainLoopF (fuel + 1) (L ++ 10 :: (payload ++ rest)) tr = drainLoopF fuel rest tr := by
  obtain ⟨hc, hd⟩ := data_line_shape _ hdata
  cases L with
  | nil => simp [trimEndB, strB, utf8Enc, List.isPrefixOf] at hdata
  | cons b bs =>
    have hsplit : splitLine ((b :: bs) ++ 10 :: (payload ++ rest))
        = ((b :: bs) ++ [10], payload ++ rest) :=
      splitLine_append_newline _ _ hnl
    have htrim : trimEndB ((b :: bs) ++ [10]) = trimEndB (b :: bs) :=
      trimEndB_append_ws _ 10 (by decide)
    have hle : len ≤ (payload ++ rest).length := by
      simp [List.length_append, hpay.symm]
    have hdrop : (payload ++ rest).drop len = rest := by
      rw [← hpay]; exact drop_append_self _ _
    rw [List.cons_append, drainLoopF]
    rw [← List.cons_append, hsplit]
    simp only [htrim, hc, hlen, hdata, hdrop]
    simp [hd, hle]
    omega

/-- Witness for C1: the header `data 3` followed by the 3-byte payload `a\nb`
(containing a newline) and then the line `done`; the loop resumes exactly at
`done`. -/
theorem C1_witness :
    (10 ∉ strB "data 3")
    ∧ ((strB "data ").isPrefixOf (trimEndB (strB "data 3")) = true)
    ∧ (parseUsize ((trimEndB (strB "data 3")).drop 5) = some 3)
    ∧ ((strB "a\nb").length = 3)
    ∧ drainLoopF 20 (strB "data 3" ++ 10 :: (strB "a\nb" ++ strB "done\n")) []
        = drainLoopF 19 (strB "done\n") [] :=
  ⟨by decide, by decide, by decide, by decide,
    C1_data_payload_byte_exact 19 3 (strB "data 3") (strB "a\nb") (strB "done\n") []
      (by decide) (by decide) (by decide) (by decide)⟩

/-- C9: in the drain loop, a line that begins with `data ` but whose length
field does not parse as an unsigned integer is treated as an ordinary line:
no error is raised, no payload bytes are consumed, and draining continues on
exactly the following input with unchanged state. -/
theorem C9_malformed_data_header_ignored (fuel : Nat) (L rest tr : List Nat)
    (hnl : 10 ∉ L)
    (hdata : (strB "data ").isPrefixOf (trimEndB L) = true)
    (hbad : parseUsize ((trimEndB L).drop 5) = none) :
    drainLoopF (fuel + 1) (L ++ 10 :: rest) tr = drainLoopF fuel rest tr := by
  obtain ⟨hc, hd⟩ := data_line_shape _ hdata
  cases L with
  | nil => simp [trimEndB, strB, utf8Enc, List.isPrefixOf] at hdata
  | cons b bs =>
    have hsplit : splitLine ((b :: bs) ++ 10 :: rest) = ((b :: bs) ++ [10], rest) :=
      splitLine_append_newline _ _ hnl
    have htrim : trimEndB ((b :: bs) ++ [10]) = trimEndB (b :: bs) :=
      trimEndB_append_ws _ 10 (by decide)
    rw [List.cons_append, drainLoopF]
    rw [← List.cons_append, hsplit]
    simp only [htrim, hc, hdata, hbad]
    simp [hd]

/-- Witness for C9: the line `data 12x` (unparsable length) is skipped as an
ordinary line; the next line `done` is read immediately, nothing is consumed. -/
theorem C9_witness :
    (10 ∉ strB "data 12x")
    ∧ ((strB "data ").isPrefixOf (trimEndB (strB "data 12x")) = true)
    ∧ (parseUsize ((trimEndB (strB "data 12x")).drop 5) = none)
    ∧ drainLoopF 20 (strB "data 12x" ++ 10 :: strB "done\n") []
        = drainLoopF 19 (strB "done\n") [] :=
  ⟨by decide, by decide, by decide,
    C9_malformed_data_header_ignored 19 (strB "data 12x") (strB "done\n") []
      (by decide) (by decide) (by decide)⟩

/-! ## Path mapping (`fast_import.rs` lines 22–54, `fast_export.rs` lines 60–93) -/

/-- Rust `str::split(c)`: split at every occurrence of `c`; `""` gives `[""]`. -/
def splitOnC (c : Char) : List Char → List (List Char)
  | [] => [[]]
  | x :: xs =>
    if x = c then [] :: splitOnC c xs
    else
      match splitOnC c xs with
      | [] => [[x]]
      | p :: ps => (x :: p) :: ps

/-- `Vec::join(sep)` over character lists. -/
def joinSepC (sep : Char) : List (List Char) → List Char
  | [] => []
  | [p] => p
  | p :: ps => p ++ sep :: joinSepC sep ps

/-- Rust `str::replace(a, b)` for single characters. -/
def replChar (a b : Char) (l : List Char) : List Char :=
  l.map (fun c => if c = a then b else c)

/-- `fast_import::page_id_to_path`: strip the namespace, turn `:` into `/`,
append `.<ext>`. -/
def pageIdToPath (pageId : String) (ns : Option String) (ext : String) : String :=
  let id := match ns with
    | some n =>
      match stripPre (n ++ ":") pageId with
      | some stripped => stripped
      | none => pageId
    | none => pageId
  (joinSepC '/' (splitOnC ':' id.toList) ++ '.' :: ext.toList).asString

/-- `fast_import::media_id_to_path`: strip the namespace, turn `:` into `/`. -/
def mediaIdToPath (mediaId : String) (ns : Option String) : String :=
  let id := match ns with
    | some n =>
      match stripPre (n ++ ":") mediaId with
      | some stripped => stripped
      | none => mediaId
    | none => mediaId
  (joinSepC '/' (splitOnC ':' id.toList)).asString

/-- `fast_export::path_to_page_id`: strip `.<ext>`, turn `/` into `:`,
re-prepend the namespace. -/
def pathToPageId (path : String) (ns : Option String) (ext : String) : Option String :=
  match stripSuf ("." ++ ext) path with
  | none => none
  | some p =>
    let pageId := (replChar '/' ':' p.toList).asString
    match ns with
    | some n => some (n ++ ":" ++ pageId)
    | none => some pageId

/-- `fast_export::is_media_file`: not ending in the page extension. -/
def isMediaFile (path : String) (ext : String) : Bool :=
  !(("." ++ ext).toList.isSuffixOf path.toList)

/-- `fast_export::path_to_media_id`: turn `/` into `:`, re-prepend namespace. -/
def pathToMediaId (path : String) (ns : Option String) : Option String :=
  let mediaId := (replChar '/' ':' path.toList).asString
  match ns with
  | some n => some (n ++ ":" ++ mediaId)
  | none => some mediaId

/-- The namespace filter applied to page ids (`fast_import.rs` lines 92–98 and
192–196, `fast_export.rs` lines 177–180). -/
def pageVisible (ns : Option String) (id : String) : Bool :=
  match ns with
  | some n => strStartsWith id (n ++ ":") || id == n
  | none => true

/-- The namespace filter applied to media ids (`fast_import.rs` lines 139–145
and 235–239): prefix match only. -/
def mediaVisible (ns : Option String) (id : String) : Bool :=
  match ns with
  | some n => strStartsWith id (n ++ ":")
  | none => true

/-! ## Wiki data model (`dokuwiki.rs` lines 20–57) -/

structure PageInfo where
  id : String
  revision : Int
  lastModified : Int
  author : String
  size : Int
  deriving DecidableEq, Repr

structure PageVersion where
  pageId : Option String
  version : Int
  author : String
  summary : String
  size : Int
  revisionType : String
  deriving DecidableEq, Repr

structure MediaInfo where
  id : String
  size : Int
  revision : Int
  author : String
  deriving DecidableEq, Repr

structure MediaVersion where
  version : Int
  author : String
  summary : String
  revisionType : String
  deriving DecidableEq, Repr

/-- A revision to import (`fast_import.rs` lines 11–19). -/
structure Revision where
  id : String
  version : Int
  author : String
  summary : String
  revisionType : String
  isMedia : Bool
  deriving DecidableEq, Repr, Inhabited

/-- Oracle giving the result of every wiki RPC the import path performs.
Fields correspond to the `DokuWikiClient` methods used by
`fast_import::generate`. -/
structure ImportOracle where
  getRecentChanges : Int → Except String (List PageVersion)
  getRecentMediaChanges : Int → Except String (List MediaInfo)
  getAllPages : Except String (List PageInfo)
  getPageList : String → Except String (List PageInfo)
  getPageVersions : String → Except String (List PageVersion)
  getMediaVersions : String → Except String (List MediaVersion)
  getAttachments : String → Except String (List MediaInfo)
  getPageVersion : String → Int → Except String String
  getAttachmentVersion : String → Int → Except String (List Nat)

/-- Empty author becomes `unknown` (`fast_import.rs`, all `Revision`
constructions). -/
def authorOr (a : String) : String := if a == "" then "unknown" else a

/-! ## Revision gathering (`fast_import.rs` lines 72–287) -/

/-- Sort then drop adjacent duplicates (Rust `ids.sort(); ids.dedup()`). -/
def sortDedupStr (l : List String) : List String := dedupAdj (sortByLe strLe l)

/-- Incremental: per changed page, retain history entries newer than `since`
(`fast_import.rs` lines 104–126); a failed history fetch only warns. -/
def pageRevsIncr (o : ImportOracle) (since : Int) (pageIds : List String) :
    List Revision :=
  pageIds.flatMap fun pid =>
    match o.getPageVersions pid with
    | .ok versions =>
      (versions.filter (fun v => decide (since < v.version))).map fun v =>
        ⟨pid, v.version, authorOr v.author, v.summary, v.revisionType, false⟩
    | .error _ => []

/-- Incremental: per changed media, retain history entries newer than `since`
(`fast_import.rs` lines 151–173). -/
def mediaRevsIncr (o : ImportOracle) (since : Int) (mediaIds : List String) :
    List Revision :=
  mediaIds.flatMap fun mid =>
    match o.getMediaVersions mid with
    | .ok versions =>
      (versions.filter (fun v => decide (since < v.version))).map fun v =>
        ⟨mid, v.version, authorOr v.author, v.summary, v.revisionType, true⟩
    | .error _ => []

/-- Incremental gathering (`fast_import.rs` lines 77–178). -/
def gatherIncr (o : ImportOracle) (ns : Option String) (since : Int) :
    Except String (List Revision) := do
  let pageChanges ← o.getRecentChanges since
  let pageIds :=
    sortDedupStr ((pageChanges.filterMap (·.pageId)).filter (pageVisible ns))
  let mediaChanges ← o.getRecentMediaChanges since
  let mediaIds :=
    sortDedupStr ((mediaChanges.map (·.id)).filter (mediaVisible ns))
  pure (pageRevsIncr o since pageIds ++ mediaRevsIncr o since mediaIds)

/-- Full fetch, page side (`fast_import.rs` lines 191–228): a successful
history fetch maps the history (nothing is synthesized when it is empty); a
failed fetch falls back to one current-version `E` revision. -/
def pageRevsFull (o : ImportOracle) (ns : Option String) (pages : List PageInfo) :
    List Revision :=
  pages.flatMap fun p =>
    if pageVisible ns p.id then
      match o.getPageVersions p.id with
      | .ok versions =>
        versions.map fun v =>
          ⟨p.id, v.version, authorOr v.author, v.summary, v.revisionType, false⟩
      | .error _ =>
        [⟨p.id, p.revision, authorOr p.author, "current version", "E", false⟩]
    else []

/-- Full-fetch contribution of one media entry (`fast_import.rs` lines
246–285): a successful but empty history synthesizes one current-version `C`
revision; a failed fetch falls back to one current-version `E` revision. -/
def mediaContrib (o : ImportOracle) (m : MediaInfo) : List Revision :=
  match o.getMediaVersions m.id with
  | .ok [] => [⟨m.id, m.revision, authorOr m.author, "current version", "C", true⟩]
  | .ok versions =>
    versions.map fun v =>
      ⟨m.id, v.version, authorOr v.author, v.summary, v.revisionType, true⟩
  | .error _ => [⟨m.id, m.revision, authorOr m.author, "current version", "E", true⟩]

/-- Full fetch, media side (`fast_import.rs` lines 243–286). -/
def mediaRevsFull (o : ImportOracle) (media : List MediaInfo) : List Revision :=
  media.flatMap (mediaContrib o)

/-- The page inventory call of a full fetch (`fast_import.rs` lines 183–187). -/
def pagesFetch (o : ImportOracle) (ns : Option String) :
    Except String (List PageInfo) :=
  match ns with
  | some n => o.getPageList n
  | none => o.getAllPages

/-- The namespace filter on the media inventory (`fast_import.rs` lines
235–239). -/
def nsFilterMedia (ns : Option String) (l : List MediaInfo) : List MediaInfo :=
  match ns with
  | some n => l.filter (fun m => strStartsWith m.id (n ++ ":"))
  | none => l

/-- Full gathering (`fast_import.rs` lines 179–287). -/
def gatherFull (o : ImportOracle) (ns : Option String) :
    Except String (List Revision) := do
  let pages ← pagesFetch o ns
  let media0 ← o.getAttachments (ns.getD "")
  pure (pageRevsFull o ns pages ++ mediaRevsFull o (nsFilterMedia ns media0))

/-- Revision gathering, incremental when `since` is set. -/
def gatherRevisions (o : ImportOracle) (ns : Option String) (since : Option Int) :
    Except String (List Revision) :=
  match since with
  | some s => gatherIncr o ns s
  | none => gatherFull o ns

/-- First occurrences of a list, in order. -/
def uniqKeep [DecidableEq α] (l : List α) : List α :=
  l.foldl (fun acc x => if x ∈ acc then acc else acc ++ [x]) []

/-- Stable sort newest-first by version (`sort_by_key(Reverse(version))`). -/
def sortByVersionDesc (l : List Revision) : List Revision :=
  sortByLe (fun a b => decide (b.version ≤ a.version)) l

/-- Depth limiting (`fast_import.rs` lines 289–306): group by item id, keep the
`d` newest revisions of each.  The source iterates a `HashMap`, whose order is
unspecified; the model fixes first-occurrence order (no theorem below depends
on the order chosen). -/
def applyDepth (depth : Option Nat) (revs : List Revision) : List Revision :=
  match depth with
  | none => revs
  | some d =>
    (uniqKeep (revs.map (·.id))).flatMap fun id =>
      (sortByVersionDesc (revs.filter (fun r => r.id == id))).take d

/-- Stable sort oldest-first by version (`sort_by_key(version)`, line 309). -/
def sortByVersion (l : List Revision) : List Revision :=
  sortByLe (fun a b => decide (a.version ≤ b.version)) l

/-! ## Stream emission (`fast_import.rs` lines 320–461)

Emitted records abstract the byte stream one-to-one: a `blob` record stands
for `blob\nmark :N\ndata <len>\n<bytes>\n`, a `commit` record for the whole
commit block (always on ref `refs/dokuwiki/origin/heads/main`), with its `M`
lines (`mods`, as `(mark, path)`) followed by its `D` lines (`dels`).
The source also maintains a `current_files` map (lines 327, 381, 404) that is
only ever written, never read; it does not influence the stream and is not
modelled. -/

inductive FromRef where
  | mark (n : Nat)
  | sha (s : String)
  deriving DecidableEq, Repr

inductive Record where
  | blob (mark : Nat) (data : List Nat)
  | commit (mark : Nat) (author : String) (email : String) (ts : Int)
      (message : String) (parent : Option FromRef)
      (mods : List (Nat × String)) (dels : List String)
  deriving DecidableEq, Repr

/-- Mutable state of the emission loop (lines 329–334). -/
structure EmitSt where
  mark : Nat
  lastCommitMark : Option Nat
  commitCount : Nat
  latestTimestamp : Int
  deriving DecidableEq, Repr

/-- The repository path a revision materializes at. -/
def revPath (ns : Option String) (ext : String) (r : Revision) : String :=
  if r.isMedia then mediaIdToPath r.id ns else pageIdToPath r.id ns ext

/-- Fetch the content of a non-delete revision (lines 387–391): pages go
through `get_page_version` and `String::into_bytes`, media through
`get_attachment_version`. -/
def fetchContent (o : ImportOracle) (r : Revision) : Except String (List Nat) :=
  if r.isMedia then o.getAttachmentVersion r.id r.version
  else (o.getPageVersion r.id r.version).map strB

/-- Per-bucket scan (lines 368–411): delete revisions add a `D` path; other
revisions whose fetch succeeds emit a blob and register `(path, mark)`; failed
fetches are skipped with a warning. -/
def bucketScan (o : ImportOracle) (ns : Option String) (ext : String) :
    List Revision → List Record → List (String × Nat) → List String → Nat →
    List Record × List (String × Nat) × List String × Nat
  | [], recs, blobs, dels, mark => (recs, blobs, dels, mark)
  | r :: rs, recs, blobs, dels, mark =>
    let path := revPath ns ext r
    if r.revisionType == "D" then
      bucketScan o ns ext rs recs blobs (dels ++ [path]) mark
    else
      match fetchContent o r with
      | .ok data =>
        bucketScan o ns ext rs (recs ++ [Record.blob mark data])
          (blobs ++ [(path, mark)]) dels (mark + 1)
      | .error _ => bucketScan o ns ext rs recs blobs dels mark

/-- Author email sanitization (line 421): spaces to dots, commas removed. -/
def emailOf (author host : String) : String :=
  ((author.toList.map (fun c => if c = ' ' then '.' else c)).filter
      (fun c => c ≠ ',')).asString ++ "@" ++ host

/-- Emit one version bucket (lines 337–456): authors are the sorted, deduped
union; the message joins per-item summaries or defaults to `Edit …`; an
entirely empty bucket produces no commit and leaves the state unchanged. -/
def emitBucket (o : ImportOracle) (ns : Option String) (ext : String)
    (parentSha : Option String) (host : String) (ts : Int)
    (revs : List Revision) (st : EmitSt) : List Record × EmitSt :=
  let authors := dedupAdj (sortByLe strLe (revs.map (·.author)))
  let author := String.intercalate ", " authors
  let summaries := revs.filterMap
    (fun r => if r.summary == "" then none else some (r.id ++ ": " ++ r.summary))
  let message :=
    if summaries.isEmpty then
      if revs.length == 1 then "Edit " ++ (revs.head?.getD default).id
      else "Edit " ++ toString revs.length ++ " items"
    else String.intercalate "\n" summaries
  let scan := bucketScan o ns ext revs [] [] [] st.mark
  let blobRecs := scan.1
  let blobs := scan.2.1
  let dels := scan.2.2.1
  let mark1 := scan.2.2.2
  if blobs.isEmpty && dels.isEmpty then ([], { st with mark := mark1 })
  else
    let parent : Option FromRef :=
      match st.lastCommitMark with
      | some p => some (FromRef.mark p)
      | none => parentSha.map FromRef.sha
    let cm := Record.commit mark1 author (emailOf author host) ts message parent
      (blobs.map (fun pm => (pm.2, pm.1))) dels
    (blobRecs ++ [cm],
      { mark := mark1 + 1, lastCommitMark := some mark1,
        commitCount := st.commitCount + 1,
        latestTimestamp := max st.latestTimestamp ts })

/-- Group the sorted revisions by version: the sorted, deduped timestamps each
paired with their revisions in (stable-sorted) order.  This reproduces the
source's `HashMap<i64, Vec<&Revision>>` built in insertion order with its keys
then iterated in sorted order (lines 320–338). -/
def bucketsOf (sorted : List Revision) : List (Int × List Revision) :=
  (dedupAdj (sorted.map (·.version))).map
    (fun ts => (ts, sorted.filter (fun r => r.version == ts)))

/-- Emit every bucket in order, threading the emit state. -/
def emitAll (o : ImportOracle) (ns : Option String) (ext : String)
    (parentSha : Option String) (host : String) :
    List (Int × List Revision) → EmitSt → List Record × EmitSt
  | [], st => ([], st)
  | (ts, revs) :: rest, st =>
    let p := emitBucket o ns ext parentSha host ts revs st
    let q := emitAll o ns ext parentSha host rest p.2
    (p.1 ++ q.1, q.2)

def initEmitSt : EmitSt := ⟨1, none, 0, 0⟩

/-- `fast_import::generate` (lines 61–461): gather, depth-limit, stable-sort by
version, emit buckets; returns the emitted records and the latest timestamp
that produced a commit. -/
def generate (o : ImportOracle) (ns : Option String) (since : Option Int)
    (parentSha : Option String) (host ext : String) (depth : Option Nat) :
    Except String (List Record × Option Int) := do
  let revs ← gatherRevisions o ns since
  if since.isSome && revs.isEmpty then
    pure ([], none)
  else
    let revs1 := applyDepth depth revs
    let sorted := sortByVersion revs1
    if sorted.isEmpty then pure ([], none)
    else
      let p := emitAll o ns ext parentSha host (bucketsOf sorted) initEmitSt
      pure (p.1, if p.2.latestTimestamp > 0 then some p.2.latestTimestamp else none)

/-! ## Properties of the emitted stream -/

def isOkB : Except String α → Bool
  | .ok _ => true
  | .error _ => false

/-- The paths a bucket's revisions materialize as `M` ops, in bucket order:
non-delete revisions whose content fetch succeeds. -/
def materializedPaths (o : ImportOracle) (ns : Option String) (ext : String)
    (revs : List Revision) : List String :=
  (revs.filter (fun r => !(r.revisionType == "D") && isOkB (fetchContent o r))).map
    (revPath ns ext)

/-- The paths a bucket's revisions produce as `D` ops, in bucket order. -/
def deletedPathsOf (ns : Option String) (ext : String) (revs : List Revision) :
    List String :=
  (revs.filter (fun r => r.revisionType == "D")).map (revPath ns ext)

theorem bucketScan_blobs (o : ImportOracle) (ns : Option String) (ext : String)
    (revs : List Revision) :
    ∀ recs blobs dels mark,
      ((bucketScan o ns ext revs recs blobs dels mark).2.1).map Prod.fst
        = blobs.map Prod.fst ++ materializedPaths o ns ext revs := by
  induction revs with
  | nil =>
    intro recs blobs dels mark
    simp [bucketScan, materializedPaths]
  | cons r rs ih =>
    intro recs blobs dels mark
    cases hD : (r.revisionType == "D") with
    | true =>
      simp [bucketScan, hD, ih, materializedPaths, List.filter_cons]
    | false =>
      cases hf : fetchContent o r with
      | ok data =>
        simp [bucketScan, hD, hf, ih, materializedPaths, List.filter_cons, isOkB]
      | error e =>
        simp [bucketScan, hD, hf, ih, materializedPaths, List.filter_cons, isOkB]

theorem bucketScan_dels (o : ImportOracle) (ns : Option String) (ext : String)
    (revs : List Revision) :
    ∀ recs blobs dels mark,
      (bucketScan o ns ext revs recs blobs dels mark).2.2.1
        = dels ++ deletedPathsOf ns ext revs := by
  induction revs with
  | nil =>
    intro recs blobs dels mark
    simp [bucketScan, deletedPathsOf]
  | cons r rs ih =>
    intro recs blobs dels mark
    cases hD : (r.revisionType == "D") with
    | true =>
      simp [bucketScan, hD, ih, deletedPathsOf, List.filter_cons]
    | false =>
      cases hf : fetchContent o r with
      | ok data =>
        simp [bucketScan, hD, hf, ih, deletedPathsOf, List.filter_cons]
      | error e =>
        simp [bucketScan, hD, hf, ih, deletedPathsOf, List.filter_cons]

theorem bucketScan_recs_shape (o : ImportOracle) (ns : Option String)
    (ext : String) (revs : List Revision) :
    ∀ recs blobs dels mark,
      ∃ newRecs, (bucketScan o ns ext revs recs blobs dels mark).1 = recs ++ newRecs
        ∧ ∀ x ∈ newRecs, ∃ m d, x = Record.blob m d := by
  induction revs with
  | nil =>
    intro recs blobs dels mark
    exact ⟨[], by simp [bucketScan], by simp⟩
  | cons r rs ih =>
    intro recs blobs dels mark
    cases hD : (r.revisionType == "D") with
    | true =>
      simpa [bucketScan, hD] using ih recs blobs (dels ++ [revPath ns ext r]) mark
    | false =>
      cases hf : fetchContent o r with
      | ok data =>
        obtain ⟨nr, h1, h2⟩ := ih (recs ++ [Record.blob mark data])
          (blobs ++ [(revPath ns ext r, mark)]) dels (mark + 1)
        refine ⟨Record.blob mark data :: nr, ?_, ?_⟩
        · simp [bucketScan, hD, hf, h1]
        · intro x hx
          rcases List.mem_cons.mp hx with h | h
          · exact ⟨mark, data, h⟩
          · exact h2 x h
      | error e =>
        simpa [bucketScan, hD, hf] using ih recs blobs dels mark

theorem bucketScan_blob_cover (o : ImportOracle) (ns : Option String)
    (ext : String) (revs : List Revision) :
    ∀ recs blobs dels mark,
      (∀ pm ∈ blobs, ∃ d, Record.blob pm.2 d ∈ recs) →
      ∀ pm ∈ (bucketScan o ns ext revs recs blobs dels mark).2.1,
        ∃ d, Record.blob pm.2 d ∈ (bucketScan o ns ext revs recs blobs dels mark).1 := by
  induction revs with
  | nil =>
    intro recs blobs dels mark hinv pm hpm
    simp only [bucketScan] at hpm ⊢
    exact hinv pm hpm
  | cons r rs ih =>
    intro recs blobs dels mark hinv pm hpm
    cases hD : (r.revisionType == "D") with
    | true =>
      simp only [bucketScan, hD] at hpm ⊢
      exact ih recs blobs (dels ++ [revPath ns ext r]) mark hinv pm hpm
    | false =>
      cases hf : fetchContent o r with
      | ok data =>
        simp only [bucketScan, hD, hf] at hpm ⊢
        refine ih _ _ dels (mark + 1) ?_ pm hpm
        intro qm hqm
        rcases List.mem_append.mp hqm with h | h
        · obtain ⟨d, hd⟩ := hinv qm h
          exact ⟨d, List.mem_append_left _ hd⟩
        · simp only [List.mem_singleton] at h
          subst h
          exact ⟨data, by simp⟩
      | error e =>
        simp only [bucketScan, hD, hf] at hpm ⊢
        exact ih recs blobs dels mark hinv pm hpm

/-- The `M` ops of a record (empty for blobs). -/
def modsOf : Record → List (Nat × String)
  | .commit _ _ _ _ _ _ mods _ => mods
  | .blob _ _ => []

/-- Claim C8's invariant over a record stream: every `M 100644 :m <path>` op of
every commit refers to a blob registered under mark `m` strictly earlier in
the stream. -/
def BlobBefore (recs : List Record) : Prop :=
  ∀ pre r post, recs = pre ++ r :: post →
    ∀ mp ∈ modsOf r, ∃ d, Record.blob mp.1 d ∈ pre

theorem blobBefore_nil : BlobBefore [] := by
  intro pre r post h
  simp at h

theorem split_of_append {α : Type _} (xs ys pre : List α) (r : α) (post : List α)
    (h : xs ++ ys = pre ++ r :: post) :
    (∃ post2, xs = pre ++ r :: post2)
      ∨ (∃ pre2, ys = pre2 ++ r :: post ∧ pre = xs ++ pre2) := by
  rcases List.append_eq_append_iff.mp h with ⟨a, ha1, ha2⟩ | ⟨c, hc1, hc2⟩
  · exact Or.inr ⟨a, ha2, ha1⟩
  · cases c with
    | nil =>
      refine Or.inr ⟨[], ?_, ?_⟩
      · simpa using hc2.symm
      · simpa using hc1.symm
    | cons x c2 =>
      left
      have hx : x = r ∧ c2 ++ ys = post := by
        have := hc2
        simp only [List.cons_append] at this
        exact ⟨(List.cons.injEq _ _ _ _ ▸ this).1.symm, (List.cons.injEq _ _ _ _ ▸ this).2.symm⟩
      exact ⟨c2, by rw [hc1, hx.1]⟩

theorem blobBefore_append (xs ys : List Record)
    (hx : BlobBefore xs) (hy : BlobBefore ys) : BlobBefore (xs ++ ys) := by
  intro pre r post hsplit mp hmp
  rcases split_of_append xs ys pre r post hsplit with ⟨post2, h⟩ | ⟨pre2, h1, h2⟩
  · exact hx pre r post2 h mp hmp
  · obtain ⟨d, hd⟩ := hy pre2 r post h1 mp hmp
    exact ⟨d, by rw [h2]; exact List.mem_append_right _ hd⟩

theorem emitBucket_blobBefore (o : ImportOracle) (ns : Option String)
    (ext : String) (psha : Option String) (host : String) (ts : Int)
    (revs : List Revision) (st : EmitSt) :
    BlobBefore (emitBucket o ns ext psha host ts revs st).1 := by
  obtain ⟨newRecs, hshape, hblobs⟩ :=
    bucketScan_recs_shape o ns ext revs [] [] [] st.mark
  simp only [List.nil_append] at hshape
  simp only [emitBucket]
  by_cases hempty :
      ((bucketScan o ns ext revs [] [] [] st.mark).2.1.isEmpty
        && (bucketScan o ns ext revs [] [] [] st.mark).2.2.1.isEmpty) = true
  · simp only [hempty, if_pos]
    exact blobBefore_nil
  · rw [if_neg hempty]
    intro pre r post hsplit mp hmp
    rcases split_of_append _ _ pre r post hsplit
      with ⟨post2, h⟩ | ⟨pre2, h1, h2⟩
    · have hr : r ∈ (bucketScan o ns ext revs [] [] [] st.mark).1 := by
        rw [h]
        exact List.mem_append_right _ (List.mem_cons_self _ _)
      obtain ⟨m, d, rfl⟩ := hblobs r (hshape ▸ hr)
      simp [modsOf] at hmp
    · have hpre2 : pre2 = [] ∧ post = [] := by
        cases pre2 with
        | nil => simpa using congrArg List.length h1
        | cons a l =>
          exfalso
          have := congrArg List.length h1
          simp at this
      obtain ⟨rfl, rfl⟩ := hpre2
      simp only [List.nil_append, List.cons.injEq] at h1
      obtain ⟨hr, -⟩ := h1
      subst hr
      simp only [modsOf, List.mem_map] at hmp
      obtain ⟨pm, hpm, rfl⟩ := hmp
      obtain ⟨d, hd⟩ := bucketScan_blob_cover o ns ext revs [] [] [] st.mark
        (by simp) pm hpm
      refine ⟨d, ?_⟩
      rw [h2]
      simpa using hd

theorem emitAll_blobBefore (o : ImportOracle) (ns : Option String) (ext : String)
    (psha : Option String) (host : String) (bl : List (Int × List Revision)) :
    ∀ st, BlobBefore (emitAll o ns ext psha host bl st).1 := by
  induction bl with
  | nil =>
    intro st
    exact blobBefore_nil
  | cons b rest ih =>
    intro st
    obtain ⟨ts, revs⟩ := b
    simp only [emitAll]
    exact blobBefore_append _ _ (emitBucket_blobBefore o ns ext psha host ts revs st)
      (ih _)

/-- The records actually written by `generate` (none when it failed). -/
def streamOf : Except String (List Record × Option Int) → List Record
  | .ok p => p.1
  | .error _ => []

/-- C8: in every stream emitted by `fast_import::generate`, every
`M 100644 :m <path>` op of every commit references a blob registered under
mark `m` that was emitted strictly earlier in the stream than that commit. -/
theorem C8_blob_emitted_before_commit (o : ImportOracle) (ns : Option String)
    (since : Option Int) (psha : Option String) (host ext : String)
    (depth : Option Nat) :
    BlobBefore (streamOf (generate o ns since psha host ext depth)) := by
  unfold generate
  cases hg : gatherRevisions o ns since with
  | error e =>
    simp only [Except.bind, bind, streamOf]
    exact blobBefore_nil
  | ok revs =>
    simp only [bind, Except.bind]
    by_cases h1 : (since.isSome && revs.isEmpty) = true
    · simp only [h1, if_pos, pure, Except.pure, streamOf]
      exact blobBefore_nil
    · simp only [h1]
      by_cases h2 : (sortByVersion (applyDepth depth revs)).isEmpty = true
      · simp [h2, pure, Except.pure, streamOf]
        exact blobBefore_nil
      · simp only [h2, pure, Except.pure, streamOf, Bool.false_eq_true, if_false]
        exact emitAll_blobBefore o ns ext psha host _ _

/-! ## Claim C2: ordering of ops inside a commit -/

/-- The file ops of a record in emitted order: `M` paths then `D` paths. -/
def opsOf : Record → List String
  | .blob _ _ => []
  | .commit _ _ _ _ _ _ mods dels => mods.map Prod.snd ++ dels

/-- The (kind, id) a path denotes, classified exactly as the export side does:
a path is a page iff it carries the page extension (`false` = page, `true` =
media). -/
def opKindId (ns : Option String) (ext : String) (path : String) : Bool × String :=
  match pathToPageId path ns ext with
  | some pid => (false, pid)
  | none => (true, (pathToMediaId path ns).getD "")

/-- Lexicographic order on (kind, id): pages before media, then byte order. -/
def kindIdLe (a b : Bool × String) : Bool :=
  if a.1 = b.1 then strLe a.2 b.2 else !a.1

def kindIdSorted : List (Bool × String) → Bool
  | [] => true
  | [_] => true
  | x :: y :: rest => kindIdLe x y && kindIdSorted (y :: rest)

/-- The (kind, id) sequence of a record's ops. -/
def commitOpKindIds (ns : Option String) (ext : String) (r : Record) :
    List (Bool × String) :=
  (opsOf r).map (opKindId ns ext)

/-- Inventory for the C2 counterexample: two pages, listed in inventory order
`b`, `a`, both with a single revision at version 100. -/
def exOracleC2 : ImportOracle where
  getRecentChanges := fun _ => .ok []
  getRecentMediaChanges := fun _ => .ok []
  getAllPages := .ok [⟨"b", 100, 100, "alice", 1⟩, ⟨"a", 100, 100, "alice", 1⟩]
  getPageList := fun _ => .ok []
  getPageVersions := fun _ => .ok [⟨none, 100, "alice", "", 0, "E"⟩]
  getMediaVersions := fun _ => .ok []
  getAttachments := fun _ => .ok []
  getPageVersion := fun pid _ => .ok ("x" ++ pid)
  getAttachmentVersion := fun _ _ => .error "no media"

/-- C2 counterexample: `generate` keeps ops in gathering order, not (kind, id)
order.  With inventory order `b`, `a` and a shared version, the only commit's
op sequence is `b.md`, `a.md`, whose (kind, id) sequence
`(page, b), (page, a)` is not sorted. -/
theorem C2_counterexample :
    generate exOracleC2 none none none "w" "md" none =
      .ok ([Record.blob 1 (strB "xb"), Record.blob 2 (strB "xa"),
        Record.commit 3 "alice" "alice@w" 100 "Edit 2 items" none
          [(1, "b.md"), (2, "a.md")] []], some 100)
    ∧ commitOpKindIds none "md"
        (Record.commit 3 "alice" "alice@w" 100 "Edit 2 items" none
          [(1, "b.md"), (2, "a.md")] []) = [(false, "b"), (false, "a")]
    ∧ kindIdSorted [(false, "b"), (false, "a")] = false :=
  ⟨by rfl, by rfl, by rfl⟩

/-- A record satisfies the corrected per-commit ordering discipline when its
`M` paths are exactly the materialized paths of its timestamp's bucket, in the
gathered (stably sorted) order, and its `D` paths the bucket's delete paths. -/
def CommitBucketOrdered (o : ImportOracle) (ns : Option String) (ext : String)
    (sorted : List Revision) : Record → Prop
  | .blob _ _ => True
  | .commit _ _ _ ts _ _ mods dels =>
      mods.map Prod.snd
        = materializedPaths o ns ext (sorted.filter (fun r => r.version == ts))
      ∧ dels = deletedPathsOf ns ext (sorted.filter (fun r => r.version == ts))

theorem emitBucket_ordered (o : ImportOracle) (ns : Option String) (ext : String)
    (psha : Option String) (host : String) (ts : Int) (revs : List Revision)
    (st : EmitSt) (sorted : List Revision)
    (hrevs : revs = sorted.filter (fun r => r.version == ts)) :
    ∀ r ∈ (emitBucket o ns ext psha host ts revs st).1,
      CommitBucketOrdered o ns ext sorted r := by
  intro r hr
  obtain ⟨newRecs, hshape, hblobs⟩ :=
    bucketScan_recs_shape o ns ext revs [] [] [] st.mark
  simp only [List.nil_append] at hshape
  simp only [emitBucket] at hr
  by_cases hempty :
      ((bucketScan o ns ext revs [] [] [] st.mark).2.1.isEmpty
        && (bucketScan o ns ext revs [] [] [] st.mark).2.2.1.isEmpty) = true
  · rw [if_pos hempty] at hr
    simp at hr
  · rw [if_neg hempty] at hr
    rcases List.mem_append.mp hr with h | h
    · obtain ⟨m, d, rfl⟩ := hblobs r (hshape ▸ h)
      trivial
    · simp only [List.mem_singleton] at h
      subst h
      refine ⟨?_, ?_⟩
      · have hb := bucketScan_blobs o ns ext revs [] [] [] st.mark
        simp only [List.map_nil, List.nil_append] at hb
        simp only [List.map_map]
        rw [← hrevs, ← hb]
        rfl
      · have hd := bucketScan_dels o ns ext revs [] [] [] st.mark
        simp only [List.nil_append] at hd
        rw [← hrevs, ← hd]

theorem emitAll_ordered (o : ImportOracle) (ns : Option String) (ext : String)
    (psha : Option String) (host : String) (sorted : List Revision)
    (bl : List (Int × List Revision))
    (hb : ∀ p ∈ bl, p.2 = sorted.filter (fun r => r.version == p.1)) :
    ∀ st, ∀ r ∈ (emitAll o ns ext psha host bl st).1,
      CommitBucketOrdered o ns ext sorted r := by
  induction bl with
  | nil =>
    intro st r hr
    simp [emitAll] at hr
  | cons b rest ih =>
    intro st r hr
    obtain ⟨ts, revs⟩ := b
    simp only [emitAll] at hr
    rcases List.mem_append.mp hr with h | h
    · exact emitBucket_ordered o ns ext psha host ts revs st sorted
        (hb (ts, revs) (List.mem_cons_self _ _)) r h
    · exact ih (fun p hp => hb p (List.mem_cons_of_mem _ hp)) _ r h

/-- C2 corrected: the ops inside a commit are not (kind, id)-sorted; instead
(without a depth limit) each commit's `M` ops list exactly the materialized
revisions of its version bucket in gathered, stably version-sorted order,
followed by the bucket's `D` ops in that same order. -/
theorem C2_ops_follow_gathering_order (o : ImportOracle) (ns : Option String)
    (since : Option Int) (psha : Option String) (host ext : String)
    (revs : List Revision) (recs : List Record) (latest : Option Int)
    (hg : gatherRevisions o ns since = .ok revs)
    (hgen : generate o ns since psha host ext none = .ok (recs, latest)) :
    ∀ r ∈ recs, CommitBucketOrdered o ns ext (sortByVersion revs) r := by
  intro r hr
  unfold generate at hgen
  rw [hg] at hgen
  simp only [bind, Except.bind] at hgen
  by_cases h1 : (since.isSome && revs.isEmpty) = true
  · rw [if_pos h1] at hgen
    simp only [pure, Except.pure, Except.ok.injEq] at hgen
    obtain ⟨rfl, -⟩ := Prod.mk.injEq _ _ _ _ ▸ hgen
    simp at hr
  · rw [if_neg h1] at hgen
    by_cases h2 : (sortByVersion (applyDepth none revs)).isEmpty = true
    · rw [if_pos h2] at hgen
      simp only [pure, Except.pure, Except.ok.injEq] at hgen
      obtain ⟨rfl, -⟩ := Prod.mk.injEq _ _ _ _ ▸ hgen
      simp at hr
    · rw [if_neg h2] at hgen
      simp only [pure, Except.pure, Except.ok.injEq] at hgen
      have hrecs : recs
          = (emitAll o ns ext psha host
              (bucketsOf (sortByVersion (applyDepth none revs))) initEmitSt).1 := by
        have := congrArg Prod.fst hgen
        simpa using this.symm
      rw [hrecs] at hr
      have happ : applyDepth none revs = revs := rfl
      rw [happ] at hr
      refine emitAll_ordered o ns ext psha host (sortByVersion revs) _ ?_ _ r hr
      intro p hp
      simp only [bucketsOf, List.mem_map] at hp
      obtain ⟨ts, -, rfl⟩ := hp
      rfl

/-- Witness for the corrected C2 at the counterexample input: the concrete
commit's ops satisfy the gathering-order discipline. -/
theorem C2_witness :
    (gatherRevisions exOracleC2 none none =
      .ok [⟨"b", 100, "alice", "", "E", false⟩, ⟨"a", 100, "alice", "", "E", false⟩])
    ∧ (generate exOracleC2 none none none "w" "md" none =
      .ok ([Record.blob 1 (strB "xb"), Record.blob 2 (strB "xa"),
        Record.commit 3 "alice" "alice@w" 100 "Edit 2 items" none
          [(1, "b.md"), (2, "a.md")] []], some 100))
    ∧ CommitBucketOrdered exOracleC2 none "md"
        (sortByVersion
          [⟨"b", 100, "alice", "", "E", false⟩, ⟨"a", 100, "alice", "", "E", false⟩])
        (Record.commit 3 "alice" "alice@w" 100 "Edit 2 items" none
          [(1, "b.md"), (2, "a.md")] []) :=
  ⟨by rfl, by rfl,
    C2_ops_follow_gathering_order exOracleC2 none none none "w" "md"
      [⟨"b", 100, "alice", "", "E", false⟩, ⟨"a", 100, "alice", "", "E", false⟩]
      [Record.blob 1 (strB "xb"), Record.blob 2 (strB "xa"),
        Record.commit 3 "alice" "alice@w" 100 "Edit 2 items" none
          [(1, "b.md"), (2, "a.md")] []]
      (some 100) (by rfl) (by rfl)
      (Record.commit 3 "alice" "alice@w" 100 "Edit 2 items" none
        [(1, "b.md"), (2, "a.md")] [])
      (by simp)⟩

/-! ## Claim C3: synthesized current-version revisions on empty history -/

/-- Inventory for the C3 counterexample: one page `p` whose history fetch
succeeds but returns no revisions. -/
def exOracleC3 : ImportOracle where
  getRecentChanges := fun _ => .ok []
  getRecentMediaChanges := fun _ => .ok []
  getAllPages := .ok [⟨"p", 100, 100, "alice", 1⟩]
  getPageList := fun _ => .ok []
  getPageVersions := fun _ => .ok []
  getMediaVersions := fun _ => .ok []
  getAttachments := fun _ => .ok []
  getPageVersion := fun _ _ => .ok "x"
  getAttachmentVersion := fun _ _ => .error "no media"

/-- C3 counterexample: a page whose history fetch succeeds with an empty list
is not materialized at all — no revision is synthesized and the emitted stream
is empty, against the claim that pages too get a synthesized create revision. -/
theorem C3_counterexample :
    gatherFull exOracleC3 none = .ok []
    ∧ generate exOracleC3 none none none "w" "md" none = .ok ([], none) :=
  ⟨by rfl, by rfl⟩

/-- Entries of the full-fetch page side all have `isMedia = false`. -/
theorem pageRevsFull_not_media (o : ImportOracle) (ns : Option String)
    (pages : List PageInfo) :
    ∀ r ∈ pageRevsFull o ns pages, r.isMedia = false := by
  intro r hr
  simp only [pageRevsFull, List.mem_flatMap] at hr
  obtain ⟨p, -, hr⟩ := hr
  by_cases hv : pageVisible ns p.id = true
  · rw [if_pos hv] at hr
    cases hV : o.getPageVersions p.id with
    | ok versions =>
      rw [hV] at hr
      simp only [List.mem_map] at hr
      obtain ⟨v, -, rfl⟩ := hr
      rfl
    | error e =>
      rw [hV] at hr
      simp only [List.mem_singleton] at hr
      subst hr
      rfl
  · rw [if_neg hv] at hr
    simp at hr

/-- A media entry whose id differs from `mid` contributes no revision with
id `mid`. -/
theorem mediaContrib_filter_ne (o : ImportOracle) (mid : String) (x : MediaInfo)
    (hx : (x.id == mid) = false) :
    (mediaContrib o x).filter (fun r => r.isMedia && r.id == mid) = [] := by
  unfold mediaContrib
  cases hV : o.getMediaVersions x.id with
  | ok versions =>
    cases versions with
    | nil => simp [hx]
    | cons v vs =>
      apply List.filter_eq_nil_iff.mpr
      intro a ha
      simp only [List.mem_map] at ha
      obtain ⟨w, -, rfl⟩ := ha
      simp [hx]
  | error e => simp [hx]

theorem mediaRevsFull_filter_nil (o : ImportOracle) (mid : String)
    (l : List MediaInfo)
    (h : l.filter (fun x => x.id == mid) = []) :
    (mediaRevsFull o l).filter (fun r => r.isMedia && r.id == mid) = [] := by
  induction l with
  | nil => simp [mediaRevsFull]
  | cons x xs ih =>
    have hx : (x.id == mid) = false := by
      by_cases hxx : (x.id == mid) = true
      · exfalso
        simp only [List.filter_cons, hxx] at h
        exact List.cons_ne_nil _ _ h
      · simpa using hxx
    have hxs : xs.filter (fun y => y.id == mid) = [] := by
      simpa [List.filter_cons, hx] using h
    rw [show mediaRevsFull o (x :: xs) = mediaContrib o x ++ mediaRevsFull o xs from rfl]
    rw [List.filter_append, mediaContrib_filter_ne o mid x hx, List.nil_append]
    exact ih hxs

/-- A single media entry with an empty (successful) history contributes the
synthesized current-version create revision, and nothing else matches its id. -/
theorem mediaRevsFull_filter_unique (o : ImportOracle) (m : MediaInfo)
    (l : List MediaInfo)
    (h1 : l.filter (fun x => x.id == m.id) = [m])
    (hemp : o.getMediaVersions m.id = .ok []) :
    (mediaRevsFull o l).filter (fun r => r.isMedia && r.id == m.id)
      = [⟨m.id, m.revision, authorOr m.author, "current version", "C", true⟩] := by
  induction l with
  | nil => simp at h1
  | cons x xs ih =>
    by_cases hx : (x.id == m.id) = true
    · have h2 := h1
      simp only [List.filter_cons, hx, if_pos] at h2
      injection h2 with h2a h2b
      subst h2a
      rw [show mediaRevsFull o (x :: xs) = mediaContrib o x ++ mediaRevsFull o xs from rfl]
      rw [List.filter_append, mediaRevsFull_filter_nil o x.id xs h2b, List.append_nil]
      unfold mediaContrib
      rw [hemp]
      simp
    · have hxs : xs.filter (fun y => y.id == m.id) = [m] := by
        simpa [List.filter_cons, hx] using h1
      rw [show mediaRevsFull o (x :: xs) = mediaContrib o x ++ mediaRevsFull o xs from rfl]
      rw [List.filter_append,
        mediaContrib_filter_ne o m.id x (by simpa using hx), ih hxs, List.nil_append]

theorem filter_eq_singleton_of_mem {α : Type _} (p : α → Bool) (l : List α)
    (a : α) (hmem : a ∈ l) (hpa : p a = true)
    (hlen : (l.filter p).length = 1) : l.filter p = [a] := by
  have ha : a ∈ l.filter p := List.mem_filter.mpr ⟨hmem, hpa⟩
  obtain ⟨b, hb⟩ := List.length_eq_one.mp hlen
  rw [hb] at ha
  simp only [List.mem_singleton] at ha
  rw [hb, ha]

/-- C3 corrected: in a full import, only media items get the synthesized
revision.  For every media inventory item whose history fetch succeeds with an
empty list (and whose id is unique in the filtered inventory),
`fast_import::generate` gathers exactly one revision for it, of type create
(`C`), with version equal to the inventory row's revision and summary
`current version`.  A page whose history fetch succeeds with an empty list
contributes nothing (see the counterexample); pages only receive a fallback
revision — of type `E`, not create — when the history fetch fails. -/
theorem C3_media_empty_history_synthesizes_create (o : ImportOracle)
    (ns : Option String) (P : List PageInfo) (M0 : List MediaInfo)
    (m : MediaInfo)
    (hP : pagesFetch o ns = .ok P)
    (hM : o.getAttachments (ns.getD "") = .ok M0)
    (hm : m ∈ nsFilterMedia ns M0)
    (hone : ((nsFilterMedia ns M0).filter (fun x => x.id == m.id)).length = 1)
    (hemp : o.getMediaVersions m.id = .ok []) :
    gatherFull o ns
      = .ok (pageRevsFull o ns P ++ mediaRevsFull o (nsFilterMedia ns M0))
    ∧ (pageRevsFull o ns P ++ mediaRevsFull o (nsFilterMedia ns M0)).filter
        (fun r => r.isMedia && r.id == m.id)
      = [⟨m.id, m.revision, authorOr m.author, "current version", "C", true⟩] := by
  constructor
  · unfold gatherFull
    rw [hP, hM]
    rfl
  · rw [List.filter_append]
    have hpage :
        (pageRevsFull o ns P).filter (fun r => r.isMedia && r.id == m.id) = [] := by
      apply List.filter_eq_nil_iff.mpr
      intro r hr
      have hnm := pageRevsFull_not_media o ns P r hr
      simp [hnm]
    rw [hpage, List.nil_append]
    exact mediaRevsFull_filter_unique o m _
      (filter_eq_singleton_of_mem _ _ m hm (by simp) hone) hemp

/-- Inventory for the C3 witness: one media file `img.png` with a successful
but empty history. -/
def exOracleC3w : ImportOracle where
  getRecentChanges := fun _ => .ok []
  getRecentMediaChanges := fun _ => .ok []
  getAllPages := .ok []
  getPageList := fun _ => .ok []
  getPageVersions := fun _ => .ok []
  getMediaVersions := fun _ => .ok []
  getAttachments := fun _ => .ok [⟨"img.png", 5, 200, "bob"⟩]
  getPageVersion := fun _ _ => .error "no page"
  getAttachmentVersion := fun _ _ => .ok [1, 2]

/-- Witness for the corrected C3: the media file with empty history yields
exactly the synthesized `C` revision from the inventory row. -/
theorem C3_witness :
    (pagesFetch exOracleC3w none = .ok [])
    ∧ (exOracleC3w.getAttachments "" = .ok [⟨"img.png", 5, 200, "bob"⟩])
    ∧ ((⟨"img.png", 5, 200, "bob"⟩ : MediaInfo)
        ∈ nsFilterMedia none [⟨"img.png", 5, 200, "bob"⟩])
    ∧ (exOracleC3w.getMediaVersions "img.png" = .ok [])
    ∧ gatherFull exOracleC3w none
        = .ok (pageRevsFull exOracleC3w none []
            ++ mediaRevsFull exOracleC3w (nsFilterMedia none [⟨"img.png", 5, 200, "bob"⟩]))
    ∧ (pageRevsFull exOracleC3w none []
        ++ mediaRevsFull exOracleC3w (nsFilterMedia none [⟨"img.png", 5, 200, "bob"⟩])).filter
          (fun r => r.isMedia && r.id == (⟨"img.png", 5, 200, "bob"⟩ : MediaInfo).id)
      = [⟨"img.png", 200, authorOr "bob", "current version", "C", true⟩] := by
  have h := C3_media_empty_history_synthesizes_create exOracleC3w none []
    [⟨"img.png", 5, 200, "bob"⟩] ⟨"img.png", 5, 200, "bob"⟩
    (by rfl) (by rfl) (by decide) (by rfl) (by rfl)
  exact ⟨by rfl, by rfl, by decide, by rfl, h.1, h.2⟩

/-! ## Claim C6: the id/path round trip -/

theorem asString_toList (l : List Char) : (List.asString l).toList = l := rfl

theorem eq_of_toList_eq (s t : String) (h : s.toList = t.toList) : s = t := by
  cases s
  cases t
  simp only [String.toList] at h
  rw [h]

theorem toList_append (s t : String) : (s ++ t).toList = s.toList ++ t.toList := by
  cases s
  cases t
  rfl

theorem splitOnC_ne_nil (c : Char) (l : List Char) : splitOnC c l ≠ [] := by
  cases l with
  | nil => simp [splitOnC]
  | cons x xs =>
    simp only [splitOnC]
    by_cases hx : x = c
    · simp [hx]
    · rw [if_neg hx]
      cases h : splitOnC c xs with
      | nil => simp
      | cons p ps => simp

theorem joinSepC_cons_ne (d : Char) (p : List Char) (ps : List (List Char))
    (h : ps ≠ []) : joinSepC d (p :: ps) = p ++ d :: joinSepC d ps := by
  cases ps with
  | nil => exact absurd rfl h
  | cons q qs => rfl

theorem joinSepC_cons_head (d x : Char) (p : List Char) (ps : List (List Char)) :
    joinSepC d ((x :: p) :: ps) = x :: joinSepC d (p :: ps) := by
  cases ps <;> rfl

/-- Splitting at `c` and joining with `d` replaces every `c` by `d`. -/
theorem joinSep_splitOn (c d : Char) (l : List Char) :
    joinSepC d (splitOnC c l) = replChar c d l := by
  induction l with
  | nil => rfl
  | cons x xs ih =>
    by_cases hx : x = c
    · subst hx
      have hsp : splitOnC x (x :: xs) = [] :: splitOnC x xs := by
        simp [splitOnC]
      rw [hsp, joinSepC_cons_ne d [] _ (splitOnC_ne_nil _ _), ih]
      simp [replChar]
    · simp only [splitOnC, if_neg hx]
      cases h : splitOnC c xs with
      | nil => exact absurd h (splitOnC_ne_nil _ _)
      | cons p ps =>
        rw [joinSepC_cons_head, ← h, ih]
        simp [replChar, hx]

theorem replChar_cancel (l : List Char) (h : ('/' : Char) ∉ l) :
    replChar '/' ':' (replChar ':' '/' l) = l := by
  induction l with
  | nil => rfl
  | cons x xs ih =>
    have hx : x ≠ '/' := fun hx => h (hx ▸ List.mem_cons_self x xs)
    have hxs : ('/' : Char) ∉ xs := fun hm => h (List.mem_cons_of_mem _ hm)
    by_cases hc : x = ':'
    · subst hc
      simp [replChar] at ih ⊢
      exact ih hxs
    · simp only [replChar, List.map_cons] at ih ⊢
      rw [if_neg hc, if_neg hx]
      have := ih hxs
      simp only [replChar] at this
      rw [this]

theorem stripSuf_construct (suf : String) (l : List Char) :
    stripSuf suf ((l ++ suf.toList).asString) = some l.asString := by
  unfold stripSuf
  rw [asString_toList]
  rw [if_pos (List.isSuffixOf_iff_suffix.mpr (List.suffix_append l suf.toList))]
  congr 1
  have : (l ++ suf.toList).length - suf.toList.length = l.length := by
    simp
  rw [this, List.take_left]

theorem asString_of_toList (s : String) : (s.toList).asString = s := by
  cases s
  rfl

theorem repl_join_split (idL : List Char) (h : ('/' : Char) ∉ idL) :
    replChar '/' ':' (joinSepC '/' (splitOnC ':' idL)) = idL := by
  rw [joinSep_splitOn]
  exact replChar_cancel idL h

theorem stripPre_of_startsWith (pre s : String) (h : strStartsWith s pre = true) :
    stripPre pre s = some ((s.toList.drop pre.toList.length).asString)
    ∧ s.toList = pre.toList ++ s.toList.drop pre.toList.length := by
  unfold strStartsWith at h
  refine ⟨by unfold stripPre; rw [if_pos h], ?_⟩
  obtain ⟨t, ht⟩ := List.isPrefixOf_iff_prefix.mp h
  conv_lhs => rw [← ht]
  congr 1
  rw [← ht, List.drop_left]

theorem pathToPageId_construct (idL : List Char) (ns : Option String) (ext : String)
    (hid : ('/' : Char) ∉ idL) :
    pathToPageId ((joinSepC '/' (splitOnC ':' idL) ++ '.' :: ext.toList).asString)
        ns ext
      = some (match ns with
          | some n => n ++ ":" ++ idL.asString
          | none => idL.asString) := by
  have hdot : ('.' :: ext.toList) = ("." ++ ext).toList := by
    rw [toList_append]
    rfl
  unfold pathToPageId
  rw [hdot, stripSuf_construct]
  simp only [asString_toList]
  rw [repl_join_split idL hid]
  cases ns <;> rfl

theorem pathToMediaId_construct (idL : List Char) (ns : Option String)
    (hid : ('/' : Char) ∉ idL) :
    pathToMediaId ((joinSepC '/' (splitOnC ':' idL)).asString) ns
      = some (match ns with
          | some n => n ++ ":" ++ idL.asString
          | none => idL.asString) := by
  unfold pathToMediaId
  simp only [asString_toList]
  rw [repl_join_split idL hid]
  cases ns <;> rfl

theorem asString_data (l : List Char) : (List.asString l).data = l := rfl

/-- C6 corrected: the id/path mapping round-trips for every page id that, when
a namespace is set, carries the `ns:` prefix (so the prefix stripped on import
is exactly re-prefixed on export), and that contains no `/` character; and
likewise for media ids.  The id that is *equal* to the namespace — which the
namespace filter also admits — does not round-trip (see the counterexample). -/
theorem C6_id_path_roundtrip (ns : Option String) (id ext : String)
    (hns : ∀ n, ns = some n → strStartsWith id (n ++ ":") = true)
    (hslash : ('/' : Char) ∉ id.toList) :
    pathToPageId (pageIdToPath id ns ext) ns ext = some id
    ∧ pathToMediaId (mediaIdToPath id ns) ns = some id := by
  cases ns with
  | none =>
    constructor
    · show pathToPageId
        ((joinSepC '/' (splitOnC ':' id.toList) ++ '.' :: ext.toList).asString)
        none ext = some id
      rw [pathToPageId_construct id.toList none ext hslash, asString_of_toList]
    · show pathToMediaId ((joinSepC '/' (splitOnC ':' id.toList)).asString) none
        = some id
      rw [pathToMediaId_construct id.toList none hslash, asString_of_toList]
  | some n =>
    obtain ⟨hstrip, hsplit⟩ := stripPre_of_startsWith (n ++ ":") id (hns n rfl)
    have hrest : ('/' : Char) ∉ id.toList.drop (n ++ ":").toList.length := by
      intro hm
      exact hslash (List.mem_of_mem_drop hm)
    have hre : (n ++ ":" ++ (id.toList.drop (n ++ ":").toList.length).asString) = id := by
      apply eq_of_toList_eq
      rw [toList_append, asString_toList, ← hsplit]
    constructor
    · have hpath : pageIdToPath id (some n) ext
          = ((joinSepC '/'
              (splitOnC ':' (id.toList.drop (n ++ ":").toList.length))
              ++ '.' :: ext.toList).asString) := by
        unfold pageIdToPath
        dsimp only
        rw [hstrip]
        simp [asString_toList, asString_data]
      rw [hpath, pathToPageId_construct _ (some n) ext hrest]
      rw [show (match (some n : Option String) with
          | some n2 => n2 ++ ":" ++ (id.toList.drop (n ++ ":").toList.length).asString
          | none => (id.toList.drop (n ++ ":").toList.length).asString)
        = n ++ ":" ++ (id.toList.drop (n ++ ":").toList.length).asString from rfl]
      rw [hre]
    · have hpath : mediaIdToPath id (some n)
          = ((joinSepC '/'
              (splitOnC ':' (id.toList.drop (n ++ ":").toList.length))).asString) := by
        unfold mediaIdToPath
        dsimp only
        rw [hstrip]
        simp [asString_toList, asString_data]
      rw [hpath, pathToMediaId_construct _ (some n) hrest]
      rw [show (match (some n : Option String) with
          | some n2 => n2 ++ ":" ++ (id.toList.drop (n ++ ":").toList.length).asString
          | none => (id.toList.drop (n ++ ":").toList.length).asString)
        = n ++ ":" ++ (id.toList.drop (n ++ ":").toList.length).asString from rfl]
      rw [hre]

/-- C6 counterexample: with namespace filter `n`, the page id `n` itself is
visible (the filter admits `id == ns`), but the round trip turns it into
`n:n`: the stripped prefix is re-prefixed onto an id it was never stripped
from. -/
theorem C6_counterexample :
    pageVisible (some "n") "n" = true
    ∧ pageIdToPath "n" (some "n") "md" = "n.md"
    ∧ pathToPageId "n.md" (some "n") "md" = some "n:n"
    ∧ ("n:n" : String) ≠ "n" :=
  ⟨by rfl, by rfl, by rfl, by decide⟩

/-- Witness for the corrected C6 at namespace `n`, page id `n:a:b`,
extension `md`. -/
theorem C6_witness :
    (∀ m, (some "n" : Option String) = some m → strStartsWith "n:a:b" (m ++ ":") = true)
    ∧ (('/' : Char) ∉ ("n:a:b" : String).toList)
    ∧ pathToPageId (pageIdToPath "n:a:b" (some "n") "md") (some "n") "md" = some "n:a:b"
    ∧ pathToMediaId (mediaIdToPath "n:a:b" (some "n")) (some "n") = some "n:a:b" := by
  have h := C6_id_path_roundtrip (some "n") "n:a:b" "md"
    (fun m hm => by
      cases Option.some.injEq "n" m ▸ hm
      decide)
    (by decide)
  exact ⟨fun m hm => by
      cases Option.some.injEq "n" m ▸ hm
      decide,
    by decide, h.1, h.2⟩

/-! ## Helper protocol (`protocol.rs`, `main.rs`, `verbosity.rs`) -/

/-- ASCII whitespace at the character level (`str::trim`). -/
def wsC (c : Char) : Bool :=
  c = ' ' || c = '\t' || c = '\n' || c = '\r' || c = '\x0b' || c = '\x0c'

/-- Rust `str::trim` (ASCII whitespace). -/
def trimC (l : List Char) : List Char :=
  ((l.dropWhile wsC).reverse.dropWhile wsC).reverse

/-- Rust `splitn(2, ' ')`: the part before the first space, and the rest when
a space was found. -/
def splitFirstSp : List Char → List Char × Option (List Char)
  | [] => ([], none)
  | c :: cs =>
    if c = ' ' then ([], some cs)
    else
      let p := splitFirstSp cs
      (c :: p.1, p.2)

/-- Commands from git to the remote helper (`protocol.rs` lines 5–20). -/
inductive HCmd where
  | capabilities
  | list
  | imp (ref : String)
  | exportCmd
  | option (name value : String)
  | empty
  | unknown (line : String)
  deriving DecidableEq, Repr

/-- `protocol::parse_command` (`protocol.rs` lines 23–48). -/
def parseCommand (line : String) : HCmd :=
  let l := trimC line.toList
  if l = [] then .empty
  else
    let p := splitFirstSp l
    let cmd := p.1.asString
    let arg := (p.2.getD []).asString
    if cmd = "capabilities" then .capabilities
    else if cmd = "list" then .list
    else if cmd = "import" then .imp arg
    else if cmd = "export" then .exportCmd
    else if cmd = "option" then
      let q := splitFirstSp (p.2.getD [])
      .option q.1.asString ((q.2.getD []).asString)
    else .unknown l.asString

def digitC (c : Char) : Bool := '0' ≤ c && c ≤ '9'

/-- Rust `str::parse` for an unsigned integer type with exclusive bound
`bound`: optional leading `+`, then a non-empty run of digits, no overflow. -/
def parseNatB (bound : Nat) (s : String) : Option Nat :=
  let ds := match s.toList with
    | '+' :: rest => rest
    | l => l
  if ds = [] then none
  else if ds.all digitC then
    let v := ds.foldl (fun acc c => acc * 10 + (c.toNat - 48)) 0
    if v < bound then some v else none
  else none

/-- `value.parse::<u8>()`. -/
def parseU8 (s : String) : Option Nat := parseNatB 256 s

/-- `value.parse::<u32>()`. -/
def parseU32 (s : String) : Option Nat := parseNatB (2 ^ 32) s

/-- `Verbosity::set_level` (`verbosity.rs` lines 36–42): only ever raises. -/
def setLevel (cur level : Nat) : Nat := if level > cur then level else cur

/-- The helper's per-session state (`main.rs` lines 106–113): the import
single-shot flag, the depth option, and the (global) verbosity level. -/
structure HelperSt where
  imported : Bool
  depth : Option Nat
  verbosity : Nat
  deriving DecidableEq, Repr

/-- `RemoteHelper::set_option` (`main.rs` lines 134–155): recognized options
whose value fails to parse still reply `ok` and change nothing; only
unrecognized names reply `unsupported`. -/
def setOption (name value : String) (st : HelperSt) : HelperSt × String :=
  if name = "verbosity" then
    match parseU8 value with
    | some level => ({ st with verbosity := setLevel st.verbosity level }, "ok")
    | none => (st, "ok")
  else if name = "depth" then
    match parseU32 value with
    | some d => ({ st with depth := some d }, "ok")
    | none => (st, "ok")
  else (st, "unsupported")

/-- C10: an `option verbosity <v>` or `option depth <v>` whose value does not
parse still replies `ok` and leaves the state unchanged; `unsupported` is
replied exactly for unrecognized option names, never for unparsable values of
recognized options. -/
theorem C10_bad_option_value_still_ok (st : HelperSt) (name value : String) :
    (parseU8 value = none → setOption "verbosity" value st = (st, "ok"))
    ∧ (parseU32 value = none → setOption "depth" value st = (st, "ok"))
    ∧ ((setOption name value st).2 = "unsupported"
        ↔ (name ≠ "verbosity" ∧ name ≠ "depth")) := by
  refine ⟨?_, ?_, ?_⟩
  · intro h
    simp [setOption, h]
  · intro h
    simp [setOption, h, show ("depth" : String) ≠ "verbosity" from by decide]
  · constructor
    · intro h
      by_cases h1 : name = "verbosity"
      · subst h1
        exfalso
        revert h
        cases hp : parseU8 value <;> simp [setOption, hp]
      · by_cases h2 : name = "depth"
        · subst h2
          exfalso
          revert h
          cases hp : parseU32 value <;>
            simp [setOption, hp, show ("depth" : String) ≠ "verbosity" from by decide]
        · exact ⟨h1, h2⟩
    · rintro ⟨h1, h2⟩
      simp [setOption, h1, h2]

/-- Witness for C10: the unparsable value `abc` on both recognized options,
and the unrecognized option `followtags`. -/
theorem C10_witness :
    (parseU8 "abc" = none)
    ∧ (parseU32 "abc" = none)
    ∧ setOption "verbosity" "abc" ⟨false, none, 0⟩ = (⟨false, none, 0⟩, "ok")
    ∧ setOption "depth" "abc" ⟨false, none, 0⟩ = (⟨false, none, 0⟩, "ok")
    ∧ (setOption "followtags" "true" ⟨false, none, 0⟩).2 = "unsupported" := by
  have h := C10_bad_option_value_still_ok ⟨false, none, 0⟩ "followtags" "abc"
  exact ⟨by decide, by decide, h.1 (by decide), h.2.1 (by decide),
    (h.2.2).mpr ⟨by decide, by decide⟩⟩

/-! ## The helper session and import idempotence (`main.rs` lines 61–205) -/

/-- What the local git repository reports at session start (`main.rs` lines
209–242): the stored marker timestamp and the current wiki-ref tip. -/
structure GitInfo where
  lastTs : Option Int
  mainSha : Option String

/-- Session output items: protocol lines, a run of `fast_import::generate`
with the stream it wrote, and the marker-store write. -/
inductive SOut where
  | line (s : String)
  | ranGenerate
  | stream (recs : List Record)
  | setMarker (ts : Int)
  | exportRun
  deriving DecidableEq, Repr

/-- `RemoteHelper::import` (`main.rs` lines 185–205): a second import in the
same session returns immediately with no output and no work. -/
def helperImport (o : ImportOracle) (g : GitInfo) (ns : Option String)
    (host ext : String) (st : HelperSt) :
    HelperSt × List SOut × Except String Unit :=
  if st.imported then (st, [], .ok ())
  else
    match generate o ns g.lastTs g.mainSha host ext st.depth with
    | .error e => (st, [SOut.ranGenerate], .error e)
    | .ok (recs, latest) =>
      ({ st with imported := true },
        SOut.ranGenerate :: SOut.stream recs ::
          (match latest with
            | some ts => [SOut.setMarker ts]
            | none => []),
        .ok ())

/-- `RemoteHelper::capabilities` (`main.rs` lines 125–132). -/
def capsOut : List SOut :=
  [.line "import", .line "export", .line "option",
    .line "refspec refs/heads/*:refs/dokuwiki/origin/heads/*", .line ""]

/-- `RemoteHelper::list` (`main.rs` lines 157–183). -/
def helperList (o : ImportOracle) (g : GitInfo) : List SOut :=
  let hasNew :=
    match g.lastTs with
    | some since =>
      match o.getRecentChanges (since + 1) with
      | .ok changes => !changes.isEmpty
      | .error _ => false
    | none => true
  if hasNew then
    [.line "@refs/heads/main HEAD", .line "? refs/heads/main", .line ""]
  else
    match g.mainSha with
    | some sha => [.line (sha ++ " refs/heads/main"), .line ""]
    | none => [.line "@refs/heads/main HEAD", .line "? refs/heads/main", .line ""]

/-- The main command loop (`main.rs` lines 61–101): dispatch each stdin line;
`import` marks the batch; a blank line inside an import batch, an `export`,
or an error ends the session.  The export path's effect on the wiki is
modelled separately by `processExport`; here it only terminates the session. -/
def runSession (o : ImportOracle) (g : GitInfo) (ns : Option String)
    (host ext : String) :
    List String → Bool → HelperSt → List SOut
  | [], _, _ => []
  | line :: rest, inBatch, st =>
    match parseCommand line with
    | .capabilities => capsOut ++ runSession o g ns host ext rest inBatch st
    | .list => helperList o g ++ runSession o g ns host ext rest inBatch st
    | .option n v =>
      let p := setOption n v st
      SOut.line p.2 :: runSession o g ns host ext rest inBatch p.1
    | .imp _ =>
      let p := helperImport o g ns host ext st
      match p.2.2 with
      | .ok _ => p.2.1 ++ runSession o g ns host ext rest true p.1
      | .error _ => p.2.1
    | .exportCmd => [SOut.exportRun]
    | .empty => if inBatch then [] else runSession o g ns host ext rest inBatch st
    | .unknown _ => runSession o g ns host ext rest inBatch st

/-- How many times `generate` ran in a session's output. -/
def genCount : List SOut → Nat
  | [] => 0
  | SOut.ranGenerate :: rest => genCount rest + 1
  | _ :: rest => genCount rest

theorem genCount_append (a b : List SOut) :
    genCount (a ++ b) = genCount a + genCount b := by
  induction a with
  | nil => simp [genCount]
  | cons x xs ih =>
    cases x <;> (simp [genCount, ih]; try omega)

theorem genCount_capsOut : genCount capsOut = 0 := rfl

theorem genCount_helperList (o : ImportOracle) (g : GitInfo) :
    genCount (helperList o g) = 0 := by
  unfold helperList
  cases hl : g.lastTs with
  | none => rfl
  | some since =>
    dsimp only
    cases hrc : o.getRecentChanges (since + 1) with
    | ok changes =>
      dsimp only
      cases hb : changes.isEmpty
      · rfl
      · cases g.mainSha <;> rfl
    | error e =>
      cases g.mainSha <;> rfl

theorem setOption_imported (n v : String) (st : HelperSt) :
    (setOption n v st).1.imported = st.imported := by
  unfold setOption
  by_cases h1 : n = "verbosity"
  · rw [if_pos h1]
    cases parseU8 v <;> rfl
  · rw [if_neg h1]
    by_cases h2 : n = "depth"
    · rw [if_pos h2]
      cases parseU32 v <;> rfl
    · rw [if_neg h2]

theorem runSession_imported_no_gen (o : ImportOracle) (g : GitInfo)
    (ns : Option String) (host ext : String) :
    ∀ (lines : List String) (inB : Bool) (st : HelperSt),
      st.imported = true →
      genCount (runSession o g ns host ext lines inB st) = 0 := by
  intro lines
  induction lines with
  | nil => intro inB st h; rfl
  | cons line rest ih =>
    intro inB st h
    unfold runSession
    cases hp : parseCommand line with
    | capabilities =>
      rw [genCount_append, genCount_capsOut, ih inB st h]
    | list =>
      rw [genCount_append, genCount_helperList, ih inB st h]
    | option n v =>
      simp only [genCount]
      refine ih inB _ ?_
      rw [setOption_imported, h]
    | imp r =>
      have himp : helperImport o g ns host ext st = (st, [], .ok ()) := by
        unfold helperImport
        rw [if_pos h]
      simp only [himp, List.nil_append]
      exact ih true st h
    | exportCmd => rfl
    | empty =>
      cases inB
      · exact ih false st h
      · rfl
    | unknown s => exact ih inB st h

theorem genCount_marker (latest : Option Int) :
    genCount (match latest with
      | some ts => [SOut.setMarker ts]
      | none => []) = 0 := by
  cases latest <;> rfl

theorem runSession_gen_le_one (o : ImportOracle) (g : GitInfo)
    (ns : Option String) (host ext : String) :
    ∀ (lines : List String) (inB : Bool) (st : HelperSt),
      genCount (runSession o g ns host ext lines inB st) ≤ 1 := by
  intro lines
  induction lines with
  | nil => intro inB st; simp [runSession, genCount]
  | cons line rest ih =>
    intro inB st
    unfold runSession
    cases hp : parseCommand line with
    | capabilities =>
      rw [genCount_append, genCount_capsOut]
      simpa using ih inB st
    | list =>
      rw [genCount_append, genCount_helperList]
      simpa using ih inB st
    | option n v =>
      simp only [genCount]
      exact ih inB _
    | imp r =>
      by_cases h : st.imported = true
      · have himp : helperImport o g ns host ext st = (st, [], .ok ()) := by
          unfold helperImport
          rw [if_pos h]
        simp only [himp, List.nil_append]
        exact ih true st
      · have hfalse : st.imported = false := by
          simpa using h
        unfold helperImport
        rw [if_neg h]
        cases hgen : generate o ns g.lastTs g.mainSha host ext st.depth with
        | error e => simp [genCount]
        | ok p =>
          simp only [genCount, List.append_eq]
          rw [genCount_append, genCount_marker,
            runSession_imported_no_gen o g ns host ext rest true _ (by rfl)]
    | exportCmd => simp [genCount]
    | empty =>
      cases inB
      · exact ih false st
      · simp [genCount]
    | unknown s => exact ih inB st

/-- C7: within one helper session the import is single-shot.  Once the
`imported` flag is set, every later command — in particular every further
`import` — runs `generate` zero times and emits nothing; any session runs
`generate` at most once; and a session whose first command is an `import`
(from a fresh state) runs it exactly once, whether `generate` succeeds or
fails. -/
theorem C7_import_idempotent (o : ImportOracle) (g : GitInfo)
    (ns : Option String) (host ext : String) (lines rest : List String)
    (l0 r : String) (inB : Bool) (st : HelperSt) :
    (st.imported = true →
      genCount (runSession o g ns host ext lines inB st) = 0)
    ∧ genCount (runSession o g ns host ext lines inB st) ≤ 1
    ∧ (st.imported = false → parseCommand l0 = HCmd.imp r →
      genCount (runSession o g ns host ext (l0 :: rest) inB st) = 1) := by
  refine ⟨fun h => runSession_imported_no_gen o g ns host ext lines inB st h,
    runSession_gen_le_one o g ns host ext lines inB st, ?_⟩
  intro h hp
  unfold runSession
  rw [hp]
  unfold helperImport
  rw [if_neg (by simp [h])]
  cases hgen : generate o ns g.lastTs g.mainSha host ext st.depth with
  | error e => rfl
  | ok p =>
    simp only [genCount, List.append_eq]
    rw [genCount_append, genCount_marker,
      runSession_imported_no_gen o g ns host ext rest true _ (by rfl)]

/-- Wiki inventory for the C7 witness: an empty wiki. -/
def exOracleC7 : ImportOracle where
  getRecentChanges := fun _ => .ok []
  getRecentMediaChanges := fun _ => .ok []
  getAllPages := .ok []
  getPageList := fun _ => .ok []
  getPageVersions := fun _ => .ok []
  getMediaVersions := fun _ => .ok []
  getAttachments := fun _ => .ok []
  getPageVersion := fun _ _ => .error "no page"
  getAttachmentVersion := fun _ _ => .error "no media"

/-- Witness for C7: a session issuing `import` twice runs `generate` exactly
once. -/
theorem C7_witness :
    (parseCommand "import refs/heads/main" = HCmd.imp "refs/heads/main")
    ∧ ((⟨false, none, 0⟩ : HelperSt).imported = false)
    ∧ genCount (runSession exOracleC7 ⟨none, none⟩ none "w" "md"
        ["import refs/heads/main", "import refs/heads/main"] false
        ⟨false, none, 0⟩) = 1 :=
  ⟨by rfl, by rfl,
    (C7_import_idempotent exOracleC7 ⟨none, none⟩ none "w" "md" []
      ["import refs/heads/main"] "import refs/heads/main" "refs/heads/main"
      false ⟨false, none, 0⟩).2.2 (by rfl) (by rfl)⟩

/-! ## RPC call retry on authorization failure (`dokuwiki.rs` lines 229–259)

`DokuWikiClient::call` makes one `call_inner` attempt; when the failure
message carries an authorization signal it reauthenticates (delete the cookie
file, clear the jar, re-acquire credentials, log in, persist the jar) and
retries the original call exactly once.  The oracle supplies the outcome of
each external step; the trace records the actions performed. -/

/-- Observable client state touched by re-authentication: the persisted
cookie file, the in-memory jar, the remembered user. -/
structure AuthSt where
  cookieFileExists : Bool
  jar : List String
  user : String
  deriving DecidableEq, Repr

/-- Outcomes of the external steps one `call` can take. -/
structure AuthOracle where
  firstCall : Except String String
  creds : Except String (String × String)
  loginInner : Except String (Option Bool)
  saveResult : Except String Unit
  secondCall : Except String String

inductive AEvent where
  | attemptCall
  | removeCookieFile
  | clearJar
  | getCredentials
  | loginCall
  | saveCookies
  deriving DecidableEq, Repr

/-- Does `needle` occur as a contiguous run in the list? -/
def containsList (needle : List Char) : List Char → Bool
  | [] => needle.isEmpty
  | c :: cs => needle.isPrefixOf (c :: cs) || containsList needle cs

/-- Rust `str::contains` for substrings. -/
def containsSub (hay needle : String) : Bool :=
  containsList needle.toList hay.toList

/-- The authorization signal of `call` (line 234). -/
def authSignal (e : String) : Bool :=
  containsSub e "401" || containsSub e "Unauthorized" || containsSub e "not logged in"

/-- `DokuWikiClient::login` (lines 370–381): interpret the login response.
The `Unexpected login response` message's debug payload is elided. -/
def loginStep (o : AuthOracle) : Except String Unit :=
  match o.loginInner with
  | .error e => .error e
  | .ok (some true) => .ok ()
  | .ok (some false) => .error "Login failed: invalid credentials"
  | .ok none => .error "Unexpected login response"

/-- `DokuWikiClient::reauthenticate` (lines 244–259): delete the persisted
cookie file if present, clear the jar, re-acquire credentials, log in, adopt
the new user, persist the jar.  On an error the partially-updated client state
is not observable by any caller of `call`, so the failing branches return only
the trace and the error. -/
def reauthenticate (o : AuthOracle) (st : AuthSt) :
    List AEvent × Except String AuthSt :=
  let ev0 := if st.cookieFileExists then [AEvent.removeCookieFile] else []
  match o.creds with
  | .error e => (ev0 ++ [AEvent.clearJar, AEvent.getCredentials], .error e)
  | .ok (user, _) =>
    match loginStep o with
    | .error e =>
      (ev0 ++ [AEvent.clearJar, AEvent.getCredentials, AEvent.loginCall], .error e)
    | .ok _ =>
      match o.saveResult with
      | .error e =>
        (ev0 ++ [AEvent.clearJar, AEvent.getCredentials, AEvent.loginCall,
          AEvent.saveCookies], .error e)
      | .ok _ =>
        (ev0 ++ [AEvent.clearJar, AEvent.getCredentials, AEvent.loginCall,
          AEvent.saveCookies],
          .ok { cookieFileExists := false, jar := [], user := user })

/-- `DokuWikiClient::call` (lines 229–242). -/
def callRpc (o : AuthOracle) (st : AuthSt) :
    List AEvent × Except String String × AuthSt :=
  match o.firstCall with
  | .ok v => ([AEvent.attemptCall], .ok v, st)
  | .error e =>
    if authSignal e then
      match reauthenticate o st with
      | (evs, .error e2) => (AEvent.attemptCall :: evs, .error e2, st)
      | (evs, .ok st2) =>
        (AEvent.attemptCall :: evs ++ [AEvent.attemptCall], o.secondCall, st2)
    else ([AEvent.attemptCall], .error e, st)

def countAttempts (evs : List AEvent) : Nat :=
  (evs.filter (fun e => e == AEvent.attemptCall)).length

theorem reauth_no_attempt (o : AuthOracle) (st : AuthSt) :
    countAttempts (reauthenticate o st).1 = 0 := by
  unfold reauthenticate countAttempts
  cases hc : o.creds with
  | error e =>
    cases hf : st.cookieFileExists <;> simp
  | ok up =>
    obtain ⟨u, pw⟩ := up
    cases hl : loginStep o with
    | error e =>
      cases hf : st.cookieFileExists <;> simp
    | ok uu =>
      cases hs : o.saveResult with
      | error e => cases hf : st.cookieFileExists <;> simp
      | ok uu2 => cases hf : st.cookieFileExists <;> simp

/-- C5: on a first failure carrying an authorization signal (`401`,
`Unauthorized`, `not logged in`) and a successful re-authentication, `call`
deletes the persisted cookie file, clears the in-memory jar, re-acquires
credentials, logs in, persists the jar, and retries the original call
exactly once, returning the retry's result — including a second failure —
as is; a failure without the signal is returned after the single attempt;
and no invocation ever makes more than two attempts, for any prior state
(the budget is per call, not per session). -/
theorem C5_auth_retry_exactly_once (o : AuthOracle) (st : AuthSt)
    (e u pw : String)
    (hfail : o.firstCall = .error e) :
    (authSignal e = true → o.creds = .ok (u, pw) →
      o.loginInner = .ok (some true) → o.saveResult = .ok () →
      callRpc o st =
        (AEvent.attemptCall ::
          ((if st.cookieFileExists then [AEvent.removeCookieFile] else [])
            ++ [AEvent.clearJar, AEvent.getCredentials, AEvent.loginCall,
              AEvent.saveCookies]) ++ [AEvent.attemptCall],
          o.secondCall,
          { cookieFileExists := false, jar := [], user := u }))
    ∧ (authSignal e = false →
      callRpc o st = ([AEvent.attemptCall], .error e, st))
    ∧ countAttempts (callRpc o st).1 ≤ 2 := by
  refine ⟨?_, ?_, ?_⟩
  · intro hsig hc hl hs
    have hre : reauthenticate o st =
        ((if st.cookieFileExists then [AEvent.removeCookieFile] else [])
          ++ [AEvent.clearJar, AEvent.getCredentials, AEvent.loginCall,
            AEvent.saveCookies],
          .ok { cookieFileExists := false, jar := [], user := u }) := by
      unfold reauthenticate
      rw [hc]
      unfold loginStep
      rw [hl, hs]
    unfold callRpc
    rw [hfail]
    dsimp only
    rw [if_pos hsig, hre]
  · intro hsig
    unfold callRpc
    rw [hfail]
    dsimp only
    rw [if_neg (by simp [hsig])]
  · unfold callRpc
    cases hf : o.firstCall with
    | ok v => simp [countAttempts]
    | error e2 =>
      dsimp only
      by_cases hsig : authSignal e2 = true
      · rw [if_pos hsig]
        cases hre : reauthenticate o st with
        | mk evs res =>
          have hno := reauth_no_attempt o st
          rw [hre] at hno
          cases res with
          | error e3 =>
            simp only [countAttempts] at hno ⊢
            simp [List.filter_cons, hno]
          | ok st2 =>
            simp only [countAttempts] at hno ⊢
            simp [List.filter_cons, List.filter_append, hno]
      · rw [if_neg hsig]
        simp [countAttempts]

/-- Oracle for the C5 witness: the first attempt fails with an HTTP 401, the
re-authentication succeeds, and the retried call succeeds. -/
def exAuthOracle : AuthOracle where
  firstCall := .error "HTTP error 401 Unauthorized: denied"
  creds := .ok ("alice", "pw")
  loginInner := .ok (some true)
  saveResult := .ok ()
  secondCall := .ok "result"

/-- Witness for C5 at a concrete 401 failure: one delete of the cookie file,
one jar clear, one credential fetch, one login, one save, and exactly one
retry whose (successful) result is returned. -/
theorem C5_witness :
    (exAuthOracle.firstCall = .error "HTTP error 401 Unauthorized: denied")
    ∧ (authSignal "HTTP error 401 Unauthorized: denied" = true)
    ∧ callRpc exAuthOracle ⟨true, ["session=abc"], "old"⟩ =
        ([AEvent.attemptCall, AEvent.removeCookieFile, AEvent.clearJar,
          AEvent.getCredentials, AEvent.loginCall, AEvent.saveCookies,
          AEvent.attemptCall],
          .ok "result", ⟨false, [], "alice"⟩) :=
  ⟨by rfl, by decide,
    by
      have h := (C5_auth_retry_exactly_once exAuthOracle
        ⟨true, ["session=abc"], "old"⟩ "HTTP error 401 Unauthorized: denied"
        "alice" "pw" (by rfl)).1 (by decide) (by rfl) (by rfl) (by rfl)
      exact h⟩

/-! ## The push path (`fast_export.rs`, `process`, lines 98–418)

The drain phase is `drainStream` above.  The local-VCS facade (spec §6.5:
`merge-base`, `rev-list`, `log`, `diff-tree`, `show`) and the wiki client are
oracles; `diff-tree` output arrives as parsed `(status, path)` rows, and a
`None` from a git oracle models a failed subprocess.  Wiki calls are recorded
as events: queries and mutations. -/

inductive WEvent where
  | queryRecentChanges (since : Int)
  | putPage (id content summary : String)
  | putAttachment (id : String) (data : List Nat) (overwrite : Bool)
  | deleteAttachment (id : String)
  deriving DecidableEq, Repr

structure ExportOracle where
  lastRevisionTs : Option Int
  recentChanges : Int → Except String (List PageVersion)
  ancestorOk : Bool
  revList : Option (List String)
  commitMessage : String → String
  diffTree : String → Option (List (String × String))
  showFile : String → String → Option (List Nat)
  putPageR : String → String → String → Except String Unit
  putAttachmentR : String → List Nat → Bool → Except String Unit
  deleteAttachmentR : String → Except String Unit

/-- The namespace filter on concurrent remote changes (`fast_export.rs` lines
174–184). -/
def relevantChanges (ns : Option String) (changes : List PageVersion) :
    List PageVersion :=
  match ns with
  | some n => changes.filter (fun c =>
      strStartsWith (c.pageId.getD "") (n ++ ":") || (c.pageId.getD "") == n)
  | none => changes

/-- Per-byte view of `String::from_utf8_lossy`: ASCII bytes map to themselves,
anything else to the replacement character (multi-byte sequences are outside
every claim's scope). -/
def lossyDecode (l : List Nat) : String :=
  (l.map (fun b => if b < 128 then Char.ofNat b else '�')).asString

/-- The description of one diff row's work item (`fast_export.rs` lines
247–267). -/
def itemDesc (ns : Option String) (ext : String) (status path : String) :
    Option String :=
  match pathToPageId path ns ext with
  | some pageId =>
    if status == "D" then some ("delete page " ++ pageId)
    else if status == "A" || status == "M" then some ("update page " ++ pageId)
    else none
  | none =>
    if isMediaFile path ext then
      match pathToMediaId path ns with
      | some mediaId =>
        if status == "D" then some ("delete media " ++ mediaId)
        else if status == "A" || status == "M" then some ("update media " ++ mediaId)
        else none
      | none => none
    else none

/-- Deduplicating push of a pending item (lines 269–274). -/
def addPending (pending : List String) (desc : Option String) : List String :=
  match desc with
  | some d => if d ∈ pending then pending else pending ++ [d]
  | none => pending

/-- First pass: collect all items to be pushed (lines 226–275). -/
def collectPending (o : ExportOracle) (ns : Option String) (ext : String) :
    List String → List String → Except String (List String)
  | [], acc => .ok acc
  | c :: rest, acc =>
    match o.diffTree c with
    | none => .error ("Failed to get diff for commit " ++ c)
    | some rows =>
      collectPending o ns ext rest
        (rows.foldl (fun a sp => addPending a (itemDesc ns ext sp.1 sp.2)) acc)

/-- Push bookkeeping: the wiki-call trace plus the `pushed`/`pending` lists. -/
structure PushSt where
  events : List WEvent
  pushed : List String
  pending : List String
  deriving Repr

/-- Move an item from `pending` to `pushed` (lines 347–351, 397–401). -/
def moveToPushed (ps : PushSt) (desc : String) : PushSt :=
  { ps with
    pending := ps.pending.filter (fun x => x ≠ desc),
    pushed := if desc ∈ ps.pushed then ps.pushed else ps.pushed ++ [desc] }

/-- `push_error` (lines 14–35): the structured failure message. -/
def pushErrorMsg (failedItem err : String) (pushed pending : List String) :
    String :=
  let msg := "Push failed while trying to " ++ failedItem ++ "\n"
    ++ "Error: " ++ err ++ "\n"
  let msg := if pushed.isEmpty then msg
    else msg ++ "\nSuccessfully pushed:\n"
      ++ String.join (pushed.map (fun i => "  - " ++ i ++ "\n"))
  let msg := if pending.isEmpty then msg
    else msg ++ "\nNot yet pushed:\n"
      ++ String.join (pending.map (fun i => "  - " ++ i ++ "\n"))
  msg ++ "\nThe wiki may be in an inconsistent state. "
    ++ "Fix the issue and push again to complete the update."

/-- Apply one diff row (lines 296–402): pages by extension, media otherwise;
delete / update; in dry run only report; on a wiki error abort with the
structured message. -/
def applyLine (o : ExportOracle) (ns : Option String) (ext : String)
    (dryRun : Bool) (commit msg : String) (sp : String × String)
    (ps : PushSt) : PushSt × Option String :=
  let status := sp.1
  let path := sp.2
  match pathToPageId path ns ext with
  | some pageId =>
    if status == "D" || status == "A" || status == "M" then
      let desc := if status == "D" then "delete page " ++ pageId
        else "update page " ++ pageId
      if dryRun then (moveToPushed ps desc, none)
      else if status == "D" then
        let ev := WEvent.putPage pageId "" ("Deleted: " ++ msg)
        match o.putPageR pageId "" ("Deleted: " ++ msg) with
        | .ok _ => (moveToPushed { ps with events := ps.events ++ [ev] } desc, none)
        | .error e =>
          ({ ps with events := ps.events ++ [ev] },
            some (pushErrorMsg desc e ps.pushed ps.pending))
      else
        match o.showFile commit path with
        | none => (ps, none)
        | some bytes =>
          let content := lossyDecode bytes
          let ev := WEvent.putPage pageId content msg
          match o.putPageR pageId content msg with
          | .ok _ => (moveToPushed { ps with events := ps.events ++ [ev] } desc, none)
          | .error e =>
            ({ ps with events := ps.events ++ [ev] },
              some (pushErrorMsg desc e ps.pushed ps.pending))
    else (ps, none)
  | none =>
    if isMediaFile path ext then
      match pathToMediaId path ns with
      | none => (ps, none)
      | some mediaId =>
        if status == "D" || status == "A" || status == "M" then
          let desc := if status == "D" then "delete media " ++ mediaId
            else "update media " ++ mediaId
          if dryRun then (moveToPushed ps desc, none)
          else if status == "D" then
            let ev := WEvent.deleteAttachment mediaId
            match o.deleteAttachmentR mediaId with
            | .ok _ => (moveToPushed { ps with events := ps.events ++ [ev] } desc, none)
            | .error e =>
              ({ ps with events := ps.events ++ [ev] },
                some (pushErrorMsg desc e ps.pushed ps.pending))
          else
            match o.showFile commit path with
            | none => (ps, none)
            | some bytes =>
              let ev := WEvent.putAttachment mediaId bytes true
              match o.putAttachmentR mediaId bytes true with
              | .ok _ => (moveToPushed { ps with events := ps.events ++ [ev] } desc, none)
              | .error e =>
                ({ ps with events := ps.events ++ [ev] },
                  some (pushErrorMsg desc e ps.pushed ps.pending))
        else (ps, none)
    else (ps, none)

def applyLines (o : ExportOracle) (ns : Option String) (ext : String)
    (dryRun : Bool) (commit msg : String) :
    List (String × String) → PushSt → PushSt × Option String
  | [], ps => (ps, none)
  | sp :: rest, ps =>
    match applyLine o ns ext dryRun commit msg sp ps with
    | (ps2, some e) => (ps2, some e)
    | (ps2, none) => applyLines o ns ext dryRun commit msg rest ps2

/-- Second pass (lines 277–404): per commit, fetch the message and the diff,
apply every row. -/
def applyCommits (o : ExportOracle) (ns : Option String) (ext : String)
    (dryRun : Bool) : List String → PushSt → PushSt × Option String
  | [], ps => (ps, none)
  | c :: rest, ps =>
    match o.diffTree c with
    | none => (ps, some ("Failed to get diff for commit " ++ c))
    | some rows =>
      match applyLines o ns ext dryRun c (o.commitMessage c) rows ps with
      | (ps2, some e) => (ps2, some e)
      | (ps2, none) => applyCommits o ns ext dryRun rest ps2

/-- Phases 3–5 of the push (lines 194–417), after the concurrent-change gate. -/
def processAfterMark (o : ExportOracle) (ns : Option String) (ext : String)
    (dryRun : Bool) (targetRef : List Nat) (evs : List WEvent) :
    List WEvent × Except String (Option (List Nat)) :=
  match o.revList with
  | none => (evs, .error "Failed to get commit list")
  | some commits =>
    if commits.isEmpty then (evs, .ok none)
    else
      match collectPending o ns ext commits [] with
      | .error e => (evs, .error e)
      | .ok pending0 =>
        match applyCommits o ns ext dryRun commits ⟨[], [], pending0⟩ with
        | (ps, some e) => (evs ++ ps.events, .error e)
        | (ps, none) =>
          if dryRun then (evs ++ ps.events, .ok (some targetRef))
          else
            (evs ++ ps.events ++ [WEvent.queryRecentChanges 0],
              .ok (some targetRef))

/-- `fast_export::process` (lines 98–418): drain the stream, gate on ref and
fast-forward status, gate on concurrent remote changes using `mark + 1`, then
enumerate and apply the push. -/
def processExport (o : ExportOracle) (ns : Option String) (ext : String)
    (dryRun : Bool) (input : List Nat) :
    List WEvent × Except String (Option (List Nat)) :=
  match drainStream input with
  | .err => ([], .error "failed to read fast-export stream")
  | .ok targetRef =>
    if targetRef = [] then ([], .ok none)
    else if (strB "refs/tags/").isPrefixOf targetRef then
      ([], .error "Cannot push tags. DokuWiki does not support tags.")
    else if targetRef ≠ strB "refs/heads/main" then
      ([], .error "Can only push to main branch. DokuWiki does not support branches.")
    else if !o.ancestorOk then
      ([], .error "Remote changes not integrated. Please merge or rebase origin/main first.")
    else
      match o.lastRevisionTs with
      | some since =>
        match o.recentChanges (since + 1) with
        | .error e => ([WEvent.queryRecentChanges (since + 1)], .error e)
        | .ok changes =>
          let relevant := relevantChanges ns changes
          if relevant.isEmpty then
            processAfterMark o ns ext dryRun targetRef
              [WEvent.queryRecentChanges (since + 1)]
          else
            ([WEvent.queryRecentChanges (since + 1)],
              .error ("Remote has " ++ toString relevant.length
                ++ " new change(s). Please fetch/pull first."))
      | none => processAfterMark o ns ext dryRun targetRef []

/-- C4: when the marker store holds `mark`, the push calls recent page changes
with `mark + 1` before any wiki mutation, and if at least one returned change
passes the namespace filter it fails with
`Remote has <n> new change(s). Please fetch/pull first.` while the wiki-call
trace consists of that single query — no page or media mutation was issued. -/
theorem C4_remote_diverged_no_mutation (o : ExportOracle) (ns : Option String)
    (ext : String) (dryRun : Bool) (input : List Nat) (mark : Int)
    (changes : List PageVersion)
    (hdrain : drainStream input = .ok (strB "refs/heads/main"))
    (hanc : o.ancestorOk = true)
    (hmark : o.lastRevisionTs = some mark)
    (hrc : o.recentChanges (mark + 1) = .ok changes)
    (hrel : relevantChanges ns changes ≠ []) :
    processExport o ns ext dryRun input
      = ([WEvent.queryRecentChanges (mark + 1)],
        .error ("Remote has " ++ toString (relevantChanges ns changes).length
          ++ " new change(s). Please fetch/pull first.")) := by
  unfold processExport
  rw [hdrain]
  dsimp only
  rw [if_neg (by decide), if_neg (by decide),
    if_neg (by simp : ¬ (strB "refs/heads/main" ≠ strB "refs/heads/main")),
    if_neg (by simp [hanc]), hmark]
  dsimp only
  rw [hrc]
  dsimp only
  rw [if_neg (by simpa [List.isEmpty_iff] using hrel)]

/-- Oracle for the C4 witness: marker 100; one concurrent remote change at
timestamp 120; everything else would succeed. -/
def exExportOracle : ExportOracle where
  lastRevisionTs := some 100
  recentChanges := fun s =>
    if s == 101 then .ok [⟨some "x", 120, "eve", "", 0, "E"⟩] else .ok []
  ancestorOk := true
  revList := some ["c1"]
  commitMessage := fun _ => "msg"
  diffTree := fun _ => some [("M", "p.md")]
  showFile := fun _ _ => some (strB "hello")
  putPageR := fun _ _ _ => .ok ()
  putAttachmentR := fun _ _ _ => .ok ()
  deleteAttachmentR := fun _ => .ok ()

/-- Witness for C4: a push of `refs/heads/main` with marker 100 and one
concurrent change queries the wiki once, at timestamp 101, and fails with the
exact divergence message without touching the wiki. -/
theorem C4_witness :
    (drainStream (strB "commit refs/heads/main\ndone\n")
      = .ok (strB "refs/heads/main"))
    ∧ (exExportOracle.ancestorOk = true)
    ∧ (exExportOracle.lastRevisionTs = some 100)
    ∧ (exExportOracle.recentChanges (100 + 1) = .ok [⟨some "x", 120, "eve", "", 0, "E"⟩])
    ∧ (relevantChanges none [⟨some "x", 120, "eve", "", 0, "E"⟩] ≠ [])
    ∧ processExport exExportOracle none "md" false
        (strB "commit refs/heads/main\ndone\n")
      = ([WEvent.queryRecentChanges 101],
        .error "Remote has 1 new change(s). Please fetch/pull first.") :=
  ⟨by decide, by rfl, by rfl, by rfl, by decide,
    by
      have h := C4_remote_diverged_no_mutation exExportOracle none "md" false
        (strB "commit refs/heads/main\ndone\n") 100
        [⟨some "x", 120, "eve", "", 0, "E"⟩]
        (by decide) (by rfl) (by rfl) (by rfl) (by decide)
      exact h⟩
